import Mathlib

/-!
Verification of the patch-reconciliation and diff engine of the
csharp-code-generator web application.

The definitions below are shallow embeddings of the TypeScript source:

* `splitNl`, `splitLines`      — `text.split('\n')` (JS string split on a
                                  one-character separator);
* `lcsTable`                   — the dynamic-programming LCS length table
                                  built by `lcs` in `App.tsx` (the table is
                                  computed row by row, exactly as the
                                  imperative double loop fills it);
* `diffWalk`, `calculateLineDiff` — the backward walk of
                                  `calculateLineDiff` in `App.tsx`;
* `diffChanges`, `fileDiffBlock`, `summaryLines`, `generateCodeDiffSummary`
                                 — `generateCodeDiffSummary` in `App.tsx`;
* `applyCodePatch`             — the patch reconciler of `App.tsx` over the
                                  statically typed `FilePatch` union of
                                  `types.ts`;
* `applyCodePatchRT`           — the same function over raw runtime patch
                                  objects (fields may be absent, the `op`
                                  tag may be any string), as JavaScript
                                  actually executes it on model output;
* `findChangedFiles`, `patchPaths` — the changed-path computations of
                                  `App.tsx`;
* `encDoc`/`parseDoc`, `chunkify`, `saveLargeDoc`, `loadLargeDoc`,
  `createCheckpointDoc`, …     — the chunking codec and checkpoint store of
                                  `services/firestoreService.ts`.

JavaScript `Map`s are modelled as association lists in insertion order
(`jsMapSet` replaces in place or appends, like `Map.set`).  Firestore
documents are field maps observed only through `getField`, so they are
modelled as key-unique association lists.  `JSON.stringify`/`JSON.parse`
are platform built-ins, not repository code; the codec treats the
serialized payload as an opaque string, so they are modelled by a concrete
invertible encoding `encDoc`/`parseDoc` of records into character lists
(only invertibility and the length of the encoding matter to the codec).
The loops on Nat pairs (`diffWalk`, `diffChanges`) take an explicit fuel
argument, instantiated with a bound on the number of iterations of the
corresponding `while` loop, so that every definition is executable by the
kernel.
-/

/-- `GeneratedFile` from `types.ts`: `{ path: string; content: string }`. -/
structure GeneratedFile where
  path : String
  content : String
deriving DecidableEq, Repr

-- # JavaScript Map model (insertion-ordered association lists)

/-- `Map.set`: replace the value in place if the key is present, else append. -/
def jsMapSet {κ ν : Type} [DecidableEq κ] (m : List (κ × ν)) (k : κ) (v : ν) :
    List (κ × ν) :=
  if m.any (fun e => e.1 == k) then
    m.map (fun e => if e.1 == k then (k, v) else e)
  else m ++ [(k, v)]

/-- `Map.delete`. -/
def jsMapDel {κ ν : Type} [DecidableEq κ] (m : List (κ × ν)) (k : κ) :
    List (κ × ν) :=
  m.filter (fun e => e.1 != k)

/-- `Map.get` (`undefined` becomes `none`). -/
def jsMapGet {κ ν : Type} [DecidableEq κ] (m : List (κ × ν)) (k : κ) :
    Option ν :=
  (m.find? (fun e => e.1 == k)).map (fun e => e.2)


-- # Line splitting (JS `text.split('\n')`)

/-- JS `String.prototype.split` with separator `'\n'`, on character lists:
`"".split('\n') = [""]`, a trailing newline yields a trailing empty piece. -/
def splitNl : List Char → List (List Char)
  | [] => [[]]
  | c :: cs =>
    if c = '\n' then [] :: splitNl cs
    else
      match splitNl cs with
      | [] => [[c]]
      | l :: ls => (c :: l) :: ls

/-- `text.split('\n')` on `String`. -/
def splitLines (s : String) : List String :=
  (splitNl s.data).map (fun l => ⟨l⟩)


-- # LCS table (`lcs` in App.tsx)

/-- One row step of the LCS dynamic program: given row `i` of the table
(`prev`), compute row `i+1` entry by entry (the inner `for j` loop). -/
def lcsRow (a b : List String) (i : Nat) (prev : Nat → Nat) : Nat → Nat
  | 0 => 0
  | j + 1 =>
    if a.getD i "" = b.getD j "" then prev j + 1
    else max (prev (j + 1)) (lcsRow a b i prev j)


/-- The `(a.length+1) × (b.length+1)` LCS length table of `lcs` in
`App.tsx`: `lcsTable a b i j` is `matrix[i][j]`.  Row `i+1` is computed
from row `i`, exactly as the imperative double loop fills the matrix. -/
def lcsTable (a b : List String) : Nat → Nat → Nat
  | 0 => fun _ => 0
  | i + 1 => lcsRow a b i (lcsTable a b i)


-- # calculateLineDiff (App.tsx)

/-- The backward walk of `calculateLineDiff`: `while (j > 0) { … }`.
The first argument is fuel, a bound on the number of loop iterations
(each iteration decreases `i + j`, so `i + j` fuel always suffices). -/
def diffWalk (a b : List String) : Nat → Nat → Nat → Finset Nat
  | 0, _, _ => ∅
  | f + 1, i, j =>
    if j = 0 then ∅
    else if 0 < i ∧ a.getD (i - 1) "" = b.getD (j - 1) "" then
      -- common line: move diagonally, do not mark
      diffWalk a b f (i - 1) (j - 1)
    else
      -- mark line j of the new text, then move up or left
      insert j
        (if 0 < i ∧ (j = 0 ∨ lcsTable a b (i - 1) j ≥ lcsTable a b i (j - 1))
         then diffWalk a b f (i - 1) j
         else diffWalk a b f i (j - 1))


/-- `calculateLineDiff(oldText, newText)` from `App.tsx`: the set of
1-indexed line numbers of `newText` marked changed/added. -/
def calculateLineDiff (oldText newText : String) : Finset Nat :=
  if oldText = newText then ∅
  else
    let oldLines := splitLines oldText
    let newLines := splitLines newText
    diffWalk oldLines newLines (oldLines.length + newLines.length)
      oldLines.length newLines.length

-- # generateCodeDiffSummary (App.tsx)

/-- Classification of one line in the reconstructed diff. -/
inductive ChangeType where
  | same
  | added
  | removed
deriving DecidableEq, Repr

/-- One `{ type, line }` entry of the `changes` array. -/
structure Change where
  type : ChangeType
  line : String
deriving DecidableEq, Repr


/-- The backward reconstruction loop of `generateCodeDiffSummary`:
`while (oi > 0 || nj > 0) { … changes.unshift(…) … }`.  The entries are
accumulated front-to-back (`unshift` prepends while walking backward, so
the entry produced at state `(oi, nj)` is the last of the result).  The
first argument is fuel, a bound on the number of loop iterations. -/
def diffChanges (a b : List String) : Nat → Nat → Nat → List Change
  | 0, _, _ => []
  | f + 1, oi, nj =>
    if oi = 0 ∧ nj = 0 then []
    else if 0 < oi ∧ 0 < nj ∧ a.getD (oi - 1) "" = b.getD (nj - 1) "" then
      diffChanges a b f (oi - 1) (nj - 1) ++ [⟨.same, a.getD (oi - 1) ""⟩]
    else if 0 < nj ∧ (oi = 0 ∨
        lcsTable a b oi (nj - 1) ≥ lcsTable a b (oi - 1) nj) then
      diffChanges a b f oi (nj - 1) ++ [⟨.added, b.getD (nj - 1) ""⟩]
    else
      diffChanges a b f (oi - 1) nj ++ [⟨.removed, a.getD (oi - 1) ""⟩]

/-- The lines `diffOutput.push`ed for an added file. -/
def addedFileBlock (path content : String) : List String :=
  ["diff --git a/" ++ path ++ " b/" ++ path, "--- /dev/null", "+++ b/" ++ path]
    ++ (splitLines content).map (fun line => "+" ++ line) ++ [""]

/-- The lines `diffOutput.push`ed for a deleted file. -/
def deletedFileBlock (path content : String) : List String :=
  ["diff --git a/" ++ path ++ " b/" ++ path, "--- a/" ++ path, "+++ /dev/null"]
    ++ (splitLines content).map (fun line => "-" ++ line) ++ [""]

/-- Prefixing of one reconstructed change (`+`, `-`, or a space). -/
def renderChange (c : Change) : String :=
  match c.type with
  | .added => "+" ++ c.line
  | .removed => "-" ++ c.line
  | .same => " " ++ c.line


/-- The lines `diffOutput.push`ed for a modified file: headers, then the
reconstructed interleaved changes, then a separating blank line. -/
def fileDiffBlock (path oldContent newContent : String) : List String :=
  let oldLines := splitLines oldContent
  let newLines := splitLines newContent
  let changes := diffChanges oldLines newLines
    (oldLines.length + newLines.length) oldLines.length newLines.length
  ["diff --git a/" ++ path ++ " b/" ++ path, "--- a/" ++ path, "+++ b/" ++ path]
    ++ changes.map renderChange ++ [""]


/-- First-found lookup of a path in a file collection (used to model
`Map.get` on the path→content maps; file collections have unique paths). -/
def fileLookup (files : List GeneratedFile) (p : String) : Option String :=
  (files.find? (fun f => f.path == p)).map (fun f => f.content)


/-- The per-path output of the `for (const path of …)` body of
`generateCodeDiffSummary` (nothing for an unchanged or absent path). -/
def pathBlock (oldFiles newFiles : List GeneratedFile) (p : String) :
    List String :=
  match fileLookup oldFiles p, fileLookup newFiles p with
  | none, some nc => addedFileBlock p nc
  | some oc, none => deletedFileBlock p oc
  | some oc, some nc => if oc ≠ nc then fileDiffBlock p oc nc else []
  | none, none => []


/-- All output lines of `generateCodeDiffSummary`: the union of old and new
paths, deduplicated (JS `Set`), in sorted order (`Array.sort()`), each
contributing its block. -/
def summaryLines (oldFiles newFiles : List GeneratedFile) : List String :=
  let allPaths :=
    ((oldFiles.map (fun f => f.path)) ++ (newFiles.map (fun f => f.path))).dedup
  ((allPaths.insertionSort (· ≤ ·)).map (pathBlock oldFiles newFiles)).flatten


/-- `generateCodeDiffSummary(oldFiles, newFiles)` from `App.tsx`
(`diffOutput.join('\n')`). -/
def generateCodeDiffSummary (oldFiles newFiles : List GeneratedFile) : String :=
  String.intercalate "\n" (summaryLines oldFiles newFiles)

-- # applyCodePatch (App.tsx) over the static FilePatch type of types.ts

/-- The `FilePatch` union of `types.ts`. -/
inductive FilePatch where
  | add (path content : String)
  | update (path content : String)
  | delete (path : String)
deriving DecidableEq, Repr

/-- The `path` field common to all three variants. -/
def FilePatch.path : FilePatch → String
  | .add p _ => p
  | .update p _ => p
  | .delete p => p


/-- One iteration of `patch.forEach` in `applyCodePatch`: the
`switch (operation.op)`. -/
def applyPatchStep (m : List (String × GeneratedFile)) (op : FilePatch) :
    List (String × GeneratedFile) :=
  match op with
  | .add p c => jsMapSet m p ⟨p, c⟩
  | .update p c => jsMapSet m p ⟨p, c⟩
  | .delete p => jsMapDel m p


/-- `applyCodePatch(currentCode, patch)` from `App.tsx`: seed a `Map` from
the current files, apply the operations in order, return the values. -/
def applyCodePatch (currentCode : List GeneratedFile) (patch : List FilePatch) :
    List GeneratedFile :=
  let filesMap := currentCode.map (fun f => (f.path, f))
  (patch.foldl applyPatchStep filesMap).map (fun e => e.2)


-- # applyCodePatch over raw runtime patch objects

/-- A patch entry as JavaScript actually receives it from parsed model
output: the `op` tag is an arbitrary string and `path`/`content` may be
absent (`undefined`, modelled as `none`). -/
structure RawPatchOp where
  op : String
  path : Option String
  content : Option String
deriving DecidableEq, Repr


/-- A file record as produced at runtime from a raw entry:
`{ path: operation.path, content: operation.content }`, either of which
may be `undefined`. -/
structure RawFile where
  path : Option String
  content : Option String
deriving DecidableEq, Repr


/-- One iteration of `patch.forEach` at runtime: `add`/`update` upsert
under `operation.path` (possibly `undefined`), `delete` removes that key,
any other tag falls through the `switch` and leaves the map unchanged. -/
def applyPatchStepRT (m : List (Option String × RawFile)) (op : RawPatchOp) :
    List (Option String × RawFile) :=
  if op.op = "add" ∨ op.op = "update" then jsMapSet m op.path ⟨op.path, op.content⟩
  else if op.op = "delete" then jsMapDel m op.path
  else m

/-- `applyCodePatch` as executed on raw runtime patch entries. -/
def applyCodePatchRT (currentCode : List GeneratedFile)
    (patch : List RawPatchOp) : List RawFile :=
  let filesMap := currentCode.map (fun f => (some f.path, RawFile.mk (some f.path) (some f.content)))
  (patch.foldl applyPatchStepRT filesMap).map (fun e => e.2)


-- # findChangedFiles and the changed-path set (App.tsx)

/-- `findChangedFiles(oldFiles, newFiles)` from `App.tsx`: the paths of the
new collection that are absent from the old one or carry different
content. -/
def findChangedFiles (oldFiles newFiles : List GeneratedFile) : Finset String :=
  (((newFiles.map (fun f => f.path)).dedup).filter
    (fun p => !(oldFiles.any (fun f => f.path == p))
      || (fileLookup oldFiles p != fileLookup newFiles p))).toFinset


/-- The changed-path set recorded by `handleSendMessage` after a model
patch application: `new Set(patch.map(p => p.path))`. -/
def patchPaths (patch : List FilePatch) : Finset String :=
  (patch.map FilePatch.path).toFinset

-- # Firestore values, documents and the chunking codec (firestoreService.ts)

/-- The JSON-shaped values stored in Firestore documents by this
application: `null`, booleans, numbers, strings and arrays of file
records. -/
inductive JVal where
  | jnull
  | jbool (b : Bool)
  | jnum (n : Nat)
  | jstr (s : String)
  | jfiles (fs : List GeneratedFile)
deriving DecidableEq, Repr


/-- A Firestore document's field map, as a key-unique association list
(observed only through `getField`). -/
abbrev Doc : Type := List (String × JVal)

/-- Field lookup in a document. -/
def getField (d : Doc) (k : String) : Option JVal :=
  (d.find? (fun e => e.1 == k)).map (fun e => e.2)

/-- Remove a field (the `deleteField()` sentinel under `merge: true`). -/
def docRemove (d : Doc) (k : String) : Doc :=
  d.filter (fun e => e.1 != k)


/-- Set a field.  Documents are field maps, so the representation keeps one
binding per key: set removes any existing binding and appends. -/
def docSet (d : Doc) (k : String) (v : JVal) : Doc :=
  docRemove d k ++ [(k, v)]


/-- One `set(…, { merge: true })` call: apply field updates in order, where
`(k, some v)` writes `v` and `(k, none)` is the `deleteField()` sentinel. -/
def applyUpdates (d : Doc) (us : List (String × Option JVal)) : Doc :=
  us.foldl
    (fun d u =>
      match u.2 with
      | some v => docSet d u.1 v
      | none => docRemove d u.1) d

/-- The updates written by spreading a record into an object literal. -/
def setsOf (d : Doc) : List (String × Option JVal) :=
  d.map (fun e => (e.1, some e.2))

/-- JS object spread `{...a, ...b}` (later keys win). -/
def mergeDoc (a b : Doc) : Doc :=
  applyUpdates a (setsOf b)

-- ## The serialization stand-in for JSON.stringify / JSON.parse

/-- Unary length encoding terminated by `#` (serialization stand-in). -/
def encNat (n : Nat) : List Char :=
  List.replicate n '1' ++ ['#']

/-- Length-prefixed string encoding. -/
def encStr (s : String) : List Char :=
  encNat s.data.length ++ s.data

/-- Encoding of one file record. -/
def encFile (f : GeneratedFile) : List Char :=
  encStr f.path ++ encStr f.content

/-- Tagged encoding of a stored value. -/
def encVal : JVal → List Char
  | .jnull => ['N']
  | .jbool b => ['B', if b then 'T' else 'F']
  | .jnum n => 'I' :: encNat n
  | .jstr s => 'S' :: encStr s
  | .jfiles fs => 'A' :: (encNat fs.length ++ (fs.map encFile).flatten)

/-- `JSON.stringify(largeData)`: encoding of a whole record. -/
def encDoc (d : Doc) : List Char :=
  encNat d.length ++ (d.map (fun e => encStr e.1 ++ encVal e.2)).flatten

/-- Decode a unary length. -/
def decNat : List Char → Option (Nat × List Char)
  | [] => none
  | c :: cs =>
    if c = '#' then some (0, cs)
    else if c = '1' then (decNat cs).map (fun r => (r.1 + 1, r.2))
    else none

/-- Decode a length-prefixed string. -/
def decStr (cs : List Char) : Option (String × List Char) :=
  (decNat cs).bind (fun r =>
    if r.1 ≤ r.2.length then some (⟨r.2.take r.1⟩, r.2.drop r.1) else none)

/-- Decode `n` file records. -/
def decFiles : Nat → List Char → Option (List GeneratedFile × List Char)
  | 0, cs => some ([], cs)
  | n + 1, cs =>
    (decStr cs).bind (fun p =>
      (decStr p.2).bind (fun c =>
        (decFiles n c.2).map (fun fs => (⟨p.1, c.1⟩ :: fs.1, fs.2))))

/-- Decode one tagged value. -/
def decVal : List Char → Option (JVal × List Char)
  | [] => none
  | c :: cs =>
    if c = 'N' then some (.jnull, cs)
    else if c = 'B' then
      match cs with
      | [] => none
      | b :: r =>
        if b = 'T' then some (.jbool true, r)
        else if b = 'F' then some (.jbool false, r)
        else none
    else if c = 'I' then (decNat cs).map (fun r => (.jnum r.1, r.2))
    else if c = 'S' then (decStr cs).map (fun r => (.jstr r.1, r.2))
    else if c = 'A' then
      (decNat cs).bind (fun n =>
        (decFiles n.1 n.2).map (fun fs => (.jfiles fs.1, fs.2)))
    else none

/-- Decode `n` record entries. -/
def decEntries : Nat → List Char → Option (Doc × List Char)
  | 0, cs => some ([], cs)
  | n + 1, cs =>
    (decStr cs).bind (fun k =>
      (decVal k.2).bind (fun v =>
        (decEntries n v.2).map (fun d => ((k.1, v.1) :: d.1, d.2))))

/-- Decode a whole record. -/
def decDoc (cs : List Char) : Option (Doc × List Char) :=
  (decNat cs).bind (fun n => decEntries n.1 n.2)


/-- `JSON.parse(combinedJson)`: a parse succeeds only if it consumes the
whole payload. -/
def parseDoc (cs : List Char) : Option Doc :=
  match decDoc cs with
  | some (d, []) => some d
  | _ => none

-- ## Chunking

/-- `CHUNK_SIZE = 800000` from `firestoreService.ts`. -/
def CHUNK_SIZE : Nat := 800000


/-- The chunking loop of `saveLargeDoc`:
`for (i = 0; i < len; i += CHUNK_SIZE) chunks.push(s.substring(i, i + CHUNK_SIZE))`. -/
def chunkify (s : List Char) : List (List Char) :=
  if s.length = 0 then []
  else if s.length ≤ CHUNK_SIZE then [s]
  else s.take CHUNK_SIZE :: chunkify (s.drop CHUNK_SIZE)
  termination_by s.length
  decreasing_by
    simp only [CHUNK_SIZE, List.length_drop]
    omega


/-- The persisted state of one Firestore document together with its
`data_chunks` subcollection (chunk documents keyed by their `index`). -/
structure DocState where
  fields : Doc
  chunks : List (Nat × List Char)
deriving DecidableEq

/-- A fresh document (as allocated by `doc(collection)` with an auto id). -/
def emptyDocState : DocState := ⟨[], []⟩


/-- Write one chunk document under id `index.toString()` (overwrite if it
exists; chunk documents are keyed by index, so the representation keeps one
per index). -/
def setChunk (cs : List (Nat × List Char)) (i : Nat) (c : List Char) :
    List (Nat × List Char) :=
  cs.filter (fun e => e.1 != i) ++ [(i, c)]


/-- `saveLargeDoc(docRef, baseData, largeData)` from `firestoreService.ts`,
acting on the document's persisted state.  Small payloads are stored inline
with `isChunked: false`; large ones are split into `CHUNK_SIZE` chunks, the
large fields are deleted from the parent and `isChunked: true, chunkCount`
are recorded.  Stale chunks of an earlier save are not cleaned up. -/
def saveLargeDoc (prior : DocState) (baseData largeData : Doc) : DocState :=
  let largeDataJson := encDoc largeData
  if largeDataJson.length < CHUNK_SIZE then
    { fields := applyUpdates prior.fields
        (setsOf baseData ++ setsOf largeData
          ++ [("isChunked", some (JVal.jbool false))]),
      chunks := prior.chunks }
  else
    let chunks := chunkify largeDataJson
    { fields := applyUpdates prior.fields
        (setsOf baseData ++ largeData.map (fun e => (e.1, (none : Option JVal)))
          ++ [("isChunked", some (JVal.jbool true)),
              ("chunkCount", some (JVal.jnum chunks.length))]),
      chunks := chunks.enum.foldl (fun cs ic => setChunk cs ic.1 ic.2)
        prior.chunks }

/-- JS truthiness of a field value (`!data.isChunked`, `!combinedJson`). -/
def jsTruthy : Option JVal → Bool
  | none => false
  | some .jnull => false
  | some (.jbool b) => b
  | some (.jnum n) => n != 0
  | some (.jstr s) => s != ""
  | some (.jfiles _) => true


/-- The reassembled chunk payload: all chunk documents ordered by their
`index` field, contents concatenated. -/
def joinedChunks (st : DocState) : List Char :=
  (((st.chunks.insertionSort (fun x y => x.1 ≤ y.1)).map (fun e => e.2))).flatten


/-- `loadLargeDoc(docSnap)` from `firestoreService.ts` on an existing
document: return the fields directly unless `isChunked` is truthy, in which
case reassemble the chunks; on an empty payload or a parse failure, log and
fall back to the parent fields; otherwise merge the parsed fields over
them. -/
def loadLargeDoc (st : DocState) : Doc :=
  let data := st.fields
  if !(jsTruthy (getField data "isChunked")) then data
  else
    let combinedJson := joinedChunks st
    if combinedJson = [] then data
    else
      match parseDoc combinedJson with
      | some parsedLargeData => applyUpdates data (setsOf parsedLargeData)
      | none => data


-- # Checkpoints (firestoreService.ts)

/-- `createCheckpoint(packageId, message, files)`: the persisted state of
the fresh checkpoint document (`createdAt` is the server timestamp). -/
def createCheckpointDoc (message : String) (createdAt : JVal)
    (files : List GeneratedFile) : DocState :=
  saveLargeDoc emptyDocState
    [("message", JVal.jstr message), ("createdAt", createdAt)]
    [("files", JVal.jfiles files)]


/-- The per-checkpoint load of `getCheckpoints`: `loadLargeDoc`, then the
sanitizing map over `fullData.files` (absent or non-array gives `[]`). -/
def loadCheckpointFiles (st : DocState) : List GeneratedFile :=
  match getField (loadLargeDoc st) "files" with
  | some (.jfiles fs) => fs.map (fun f => ⟨f.path, f.content⟩)
  | _ => []


/-- The store state of one project: the package document and the documents
of its `checkpoints` subcollection, in creation order. -/
structure ProjectStore where
  pkg : DocState
  checkpointDocs : List DocState


/-- `createCheckpoint` appends a fresh checkpoint document; it does not
touch the package document or the live file collection. -/
def createCheckpointOp (st : ProjectStore) (message : String) (createdAt : JVal)
    (files : List GeneratedFile) : ProjectStore :=
  { st with checkpointDocs :=
      st.checkpointDocs ++ [createCheckpointDoc message createdAt files] }


/-- `updatePackage(packageId, files)`: re-save the package document with
the new files, preserving `originalFiles` read from the current document.
Only the package document (and its chunks) is written. -/
def updatePackageOp (st : ProjectStore) (updatedAt : JVal)
    (files : List GeneratedFile) : ProjectStore :=
  let origVal :=
    match getField (loadLargeDoc st.pkg) "originalFiles" with
    | some v => v
    | none => JVal.jnull
  let pkg2 := saveLargeDoc st.pkg [("updatedAt", updatedAt)]
    [("files", JVal.jfiles files), ("originalFiles", origVal)]
  { st with pkg := pkg2 }

/-- The per-path effect of one patch operation, as the specification
describes it: `add`/`update` upsert, `delete` removes, later operations
win. -/
def patchEffect (p : String) (acc : Option String) (op : FilePatch) :
    Option String :=
  match op with
  | .add q c => if q = p then some c else acc
  | .update q c => if q = p then some c else acc
  | .delete q => if q = p then none else acc

/-- The file record a raw patch entry writes:
`{ path: operation.path, content: operation.content }`. -/
def rawFileOfOp (op : RawPatchOp) : RawFile := ⟨op.path, op.content⟩

/-- The per-key effect of one raw patch operation, malformed or not. -/
def rawPatchEffect (k : Option String) (acc : Option RawFile)
    (op : RawPatchOp) : Option RawFile :=
  if (op.op = "add" ∨ op.op = "update") ∧ op.path = k then some (rawFileOfOp op)
  else if op.op = "delete" ∧ op.path = k then none
  else acc

/-- Lookup of a (possibly undefined) path key among raw file records. -/
def rawLookup (files : List RawFile) (k : Option String) : Option RawFile :=
  files.find? (fun f => decide (f.path = k))

/-- The brute-force reference: the greatest length of a common subsequence,
computed by enumerating every subsequence of `a` and keeping those that are
also subsequences of `b`. -/
def bruteLcs (a b : List String) : Nat :=
  ((a.sublists.filter (fun l => decide (l.Sublist b))).map List.length).foldr max 0

/-- The same recurrence as the table, stated structurally on lists (used to
relate the index-based table to the brute-force reference). -/
def dpLcs : List String → List String → Nat
  | [], _ => 0
  | _ :: _, [] => 0
  | x :: xs, y :: ys =>
    if x = y then dpLcs xs ys + 1
    else max (dpLcs xs (y :: ys)) (dpLcs (x :: xs) ys)
  termination_by l1 l2 => l1.length + l2.length

-- # Unmarked lines of the backward walk (claim C1)

/-- The lines of `ls` whose 1-indexed line numbers are not in `S`. -/
def unmarkedLines (S : Finset Nat) (ls : List String) : List String :=
  (ls.enum.filter (fun e => decide ((e.1 + 1) ∉ S))).map (fun e => e.2)

/-- The lines of `ls` whose 1-indexed line numbers are in `S`. -/
def linesAt (S : Finset Nat) (ls : List String) : List String :=
  (ls.enum.filter (fun e => decide ((e.1 + 1) ∈ S))).map (fun e => e.2)

-- # Claim C1 (line-diff marking)

/-- The property claimed of `calculateLineDiff`: there is an optimal
(maximum-length) common subsequence of the two line sequences, given by
the set `J` of 1-indexed new-line numbers it matches, such that the
returned set consists exactly of the line numbers of `newText` outside
`J`. -/
def markedExactlyOutsideOptimal (oldText newText : String) : Prop :=
  ∃ J ∈ (Finset.Icc 1 (splitLines newText).length).powerset,
    (linesAt J (splitLines newText)).Sublist (splitLines oldText)
    ∧ J.card = bruteLcs (splitLines oldText) (splitLines newText)
    ∧ calculateLineDiff oldText newText =
        Finset.Icc 1 (splitLines newText).length \ J

-- # Proofs

-- sanity examples (concrete executions of the embedded code)

example : splitLines "a\nb" = ["a", "b"] := by decide

example : lcsTable ["a", "b", "c"] ["a", "c"] 3 2 = 2 := by decide

example : calculateLineDiff "a\nb\nc" "a\nX\nc" = {2} := by decide

example : calculateLineDiff "a\nb" "a\nNEW\nb" = {2} := by decide

-- sanity examples

example :
    applyCodePatch [⟨"A.txt", "line1\nline2"⟩]
      [.update "A.txt" "line1\nline2-changed\nline3"] =
      [⟨"A.txt", "line1\nline2-changed\nline3"⟩] := by decide

example : applyCodePatch [] [.add "A" "1", .update "A" "2"] = [⟨"A", "2"⟩] := by
  decide

example :
    findChangedFiles [⟨"A", "x"⟩, ⟨"B", "y"⟩] [⟨"A", "x"⟩, ⟨"B", "z"⟩, ⟨"C", "w"⟩]
      = {"B", "C"} := by decide

example :
    summaryLines [⟨"A", "a\nb"⟩] [⟨"A", "a\nc"⟩] =
      ["diff --git a/A b/A", "--- a/A", "+++ b/A", " a", "-b", "+c", ""] := by
  decide

-- sanity examples

example : parseDoc (encDoc [("files", JVal.jfiles [⟨"A", "x"⟩])]) =
    some [("files", JVal.jfiles [⟨"A", "x"⟩])] := by decide

example :
    getField
      (loadLargeDoc (saveLargeDoc emptyDocState [("name", JVal.jstr "p")]
        [("files", JVal.jfiles [⟨"A", "x"⟩])]))
      "files" = some (JVal.jfiles [⟨"A", "x"⟩]) := by decide

-- # Lemmas on the JS map model

theorem findCongr {α : Type} {p q : α → Bool} :
    ∀ {l : List α}, (∀ x ∈ l, p x = q x) → l.find? p = l.find? q := by
  intro l
  induction l with
  | nil => intro _; rfl
  | cons x xs ih =>
    intro h
    have hx := h x (by simp)
    simp only [List.find?_cons]
    rw [hx]
    cases q x
    · exact ih (fun y hy => h y (by simp [hy]))
    · rfl

theorem jsMapGet_nil {κ ν : Type} [DecidableEq κ] (k : κ) :
    jsMapGet ([] : List (κ × ν)) k = none := rfl

theorem jsMapGet_cons {κ ν : Type} [DecidableEq κ] (e : κ × ν)
    (m : List (κ × ν)) (k : κ) :
    jsMapGet (e :: m) k = if e.1 = k then some e.2 else jsMapGet m k := by
  by_cases h : e.1 = k
  · simp [jsMapGet, List.find?_cons, h]
  · have hb : (e.1 == k) = false := by simpa using h
    simp [jsMapGet, List.find?_cons, hb, h]

theorem jsMapGet_append_of_some {κ ν : Type} [DecidableEq κ]
    {m : List (κ × ν)} {k : κ} {v : ν} (m₂ : List (κ × ν))
    (h : jsMapGet m k = some v) : jsMapGet (m ++ m₂) k = some v := by
  induction m with
  | nil => simp [jsMapGet_nil] at h
  | cons e m ih =>
    rw [jsMapGet_cons] at h
    rw [List.cons_append, jsMapGet_cons]
    by_cases he : e.1 = k
    · simpa [he] using h
    · rw [if_neg he] at h ⊢
      exact ih h

theorem jsMapGet_append_of_none {κ ν : Type} [DecidableEq κ]
    {m : List (κ × ν)} {k : κ} (m₂ : List (κ × ν))
    (h : jsMapGet m k = none) : jsMapGet (m ++ m₂) k = jsMapGet m₂ k := by
  induction m with
  | nil => simp
  | cons e m ih =>
    rw [jsMapGet_cons] at h
    rw [List.cons_append, jsMapGet_cons]
    by_cases he : e.1 = k
    · simp [he] at h
    · rw [if_neg he] at h ⊢
      exact ih h

theorem jsMapGet_del {κ ν : Type} [DecidableEq κ] (m : List (κ × ν))
    (k k' : κ) :
    jsMapGet (jsMapDel m k) k' = if k' = k then none else jsMapGet m k' := by
  induction m with
  | nil =>
    by_cases hk : k' = k <;> simp [jsMapDel, jsMapGet_nil, hk]
  | cons e m ih =>
    by_cases he : e.1 = k
    · have h1 : jsMapDel (e :: m) k = jsMapDel m k := by
        simp [jsMapDel, List.filter_cons, he]
      rw [h1, ih, jsMapGet_cons]
      by_cases hk : k' = k
      · simp [hk]
      · rw [if_neg hk, if_neg hk, if_neg (by rw [he]; exact fun h => hk h.symm)]
    · have h1 : jsMapDel (e :: m) k = e :: jsMapDel m k := by
        simp [jsMapDel, List.filter_cons, he]
      rw [h1, jsMapGet_cons, ih, jsMapGet_cons]
      by_cases hk : k' = k
      · rw [if_pos hk, if_pos hk, if_neg (by rw [hk]; exact he)]
      · rw [if_neg hk, if_neg hk]

theorem jsMapGet_none_of_not_any {κ ν : Type} [DecidableEq κ]
    {m : List (κ × ν)} {k : κ} (h : m.any (fun e => e.1 == k) = false) :
    jsMapGet m k = none := by
  induction m with
  | nil => rfl
  | cons e m ih =>
    simp only [List.any_cons, Bool.or_eq_false_iff] at h
    rw [jsMapGet_cons, if_neg (by simpa using h.1)]
    exact ih h.2

theorem jsMapGet_map_replace {κ ν : Type} [DecidableEq κ]
    (m : List (κ × ν)) (k k' : κ) (v : ν) (hne : k' ≠ k) :
    jsMapGet (m.map (fun e => if e.1 == k then (k, v) else e)) k'
      = jsMapGet m k' := by
  induction m with
  | nil => rfl
  | cons e m ih =>
    simp only [List.map_cons]
    by_cases he : e.1 = k
    · rw [if_pos (by simpa using he), jsMapGet_cons, jsMapGet_cons,
        if_neg (fun h => hne h.symm), if_neg (by rw [he]; exact fun h => hne h.symm)]
      exact ih
    · rw [if_neg (by simpa using he), jsMapGet_cons, jsMapGet_cons]
      by_cases hk : e.1 = k'
      · simp [hk]
      · rw [if_neg hk, if_neg hk]
        exact ih

theorem jsMapGet_map_replace_self {κ ν : Type} [DecidableEq κ]
    {m : List (κ × ν)} {k : κ} (v : ν)
    (h : m.any (fun e => e.1 == k) = true) :
    jsMapGet (m.map (fun e => if e.1 == k then (k, v) else e)) k = some v := by
  induction m with
  | nil => simp at h
  | cons e m ih =>
    simp only [List.any_cons, Bool.or_eq_true] at h
    simp only [List.map_cons]
    by_cases he : e.1 = k
    · rw [if_pos (by simpa using he), jsMapGet_cons, if_pos rfl]
    · rw [if_neg (by simpa using he), jsMapGet_cons, if_neg he]
      exact ih (h.resolve_left (by simpa using he))

theorem jsMapGet_set {κ ν : Type} [DecidableEq κ] (m : List (κ × ν))
    (k k' : κ) (v : ν) :
    jsMapGet (jsMapSet m k v) k' = if k' = k then some v else jsMapGet m k' := by
  unfold jsMapSet
  by_cases hany : m.any (fun e => e.1 == k) = true
  · rw [if_pos hany]
    by_cases hk : k' = k
    · rw [if_pos hk, hk, jsMapGet_map_replace_self v hany]
    · rw [if_neg hk, jsMapGet_map_replace m k k' v hk]
  · rw [if_neg hany]
    rw [Bool.not_eq_true] at hany
    have hnone := jsMapGet_none_of_not_any (m := m) (k := k) hany
    by_cases hk : k' = k
    · subst hk
      rw [if_pos rfl, jsMapGet_append_of_none _ hnone, jsMapGet_cons, if_pos rfl]
    · rw [if_neg hk]
      cases hv : jsMapGet m k' with
      | some w => rw [jsMapGet_append_of_some _ hv]
      | none =>
        rw [jsMapGet_append_of_none _ hv, jsMapGet_cons,
          if_neg (fun h => hk h.symm), jsMapGet_nil]

-- # Lemmas on document fields

theorem getField_eq_jsMapGet (d : Doc) (k : String) :
    getField d k = jsMapGet d k := rfl

theorem docRemove_eq_jsMapDel (d : Doc) (k : String) :
    docRemove d k = jsMapDel d k := rfl

theorem getField_docRemove (d : Doc) (k k' : String) :
    getField (docRemove d k) k' = if k' = k then none else getField d k' := by
  rw [getField_eq_jsMapGet, docRemove_eq_jsMapDel, jsMapGet_del,
    getField_eq_jsMapGet]

theorem getField_docSet (d : Doc) (k k' : String) (v : JVal) :
    getField (docSet d k v) k' = if k' = k then some v else getField d k' := by
  unfold docSet
  by_cases hk : k' = k
  · subst hk
    rw [if_pos rfl, getField_eq_jsMapGet,
      jsMapGet_append_of_none _ (by rw [← getField_eq_jsMapGet, getField_docRemove, if_pos rfl]),
      jsMapGet_cons, if_pos rfl]
  · rw [if_neg hk, getField_eq_jsMapGet]
    cases hv : getField (docRemove d k) k' with
    | some w =>
      rw [jsMapGet_append_of_some _ (by rw [← getField_eq_jsMapGet]; exact hv)]
      rw [getField_docRemove, if_neg hk] at hv
      exact hv.symm
    | none =>
      rw [jsMapGet_append_of_none _ (by rw [← getField_eq_jsMapGet]; exact hv),
        jsMapGet_cons, if_neg (fun h => hk h.symm), jsMapGet_nil]
      rw [getField_docRemove, if_neg hk] at hv
      exact hv.symm

theorem applyUpdates_append (d : Doc) (us vs : List (String × Option JVal)) :
    applyUpdates d (us ++ vs) = applyUpdates (applyUpdates d us) vs := by
  unfold applyUpdates
  exact List.foldl_append _ _ _ _

theorem getField_eq_none_iff (d : Doc) (k : String) :
    getField d k = none ↔ k ∉ d.map (fun e => e.1) := by
  unfold getField
  rw [Option.map_eq_none', List.find?_eq_none]
  constructor
  · intro h hk
    obtain ⟨e, he, hek⟩ := List.mem_map.mp hk
    exact h e he (by simpa using hek)
  · intro h e he hek
    exact h (List.mem_map.mpr ⟨e, he, by simpa using hek⟩)

theorem getField_applyUpdates_sets (d c : Doc) (k : String)
    (hc : (c.map (fun e => e.1)).Nodup) :
    getField (applyUpdates d (setsOf c)) k =
      match getField c k with
      | some v => some v
      | none => getField d k := by
  induction c generalizing d with
  | nil => simp [setsOf, applyUpdates, getField]
  | cons e c ih =>
    simp only [List.map_cons, List.nodup_cons] at hc
    have step : applyUpdates d (setsOf (e :: c)) =
        applyUpdates (docSet d e.1 e.2) (setsOf c) := rfl
    have hcons : getField (e :: c) k = if e.1 = k then some e.2 else getField c k :=
      jsMapGet_cons e c k
    rw [step, ih _ hc.2, hcons]
    by_cases hk : e.1 = k
    · have hnone : getField c k = none :=
        (getField_eq_none_iff c k).mpr (by rw [← hk]; exact hc.1)
      rw [if_pos hk, hnone]
      show getField (docSet d e.1 e.2) k = some e.2
      rw [getField_docSet, if_pos hk.symm]
    · rw [if_neg hk]
      cases hv : getField c k with
      | some w => rfl
      | none =>
        show getField (docSet d e.1 e.2) k = getField d k
        rw [getField_docSet, if_neg (fun h => hk h.symm)]

theorem getField_applyUpdates_dels (d c : Doc) (k : String) :
    getField (applyUpdates d (c.map (fun e => (e.1, (none : Option JVal))))) k =
      if k ∈ c.map (fun e => e.1) then none else getField d k := by
  induction c generalizing d with
  | nil => simp [applyUpdates]
  | cons e c ih =>
    have step : applyUpdates d ((e :: c).map (fun e => (e.1, (none : Option JVal)))) =
        applyUpdates (docRemove d e.1) (c.map (fun e => (e.1, (none : Option JVal)))) := rfl
    rw [step, ih]
    by_cases hmem : k ∈ c.map (fun e => e.1)
    · rw [if_pos hmem, if_pos (by simp [hmem])]
    · rw [if_neg hmem, getField_docRemove]
      by_cases hk : k = e.1
      · rw [if_pos hk, if_pos (by simp [hk])]
      · rw [if_neg hk, if_neg (by simp [hk, hmem])]

theorem getField_mergeDoc (a b : Doc) (k : String)
    (hb : (b.map (fun e => e.1)).Nodup) :
    getField (mergeDoc a b) k =
      match getField b k with
      | some v => some v
      | none => getField a k := by
  unfold mergeDoc
  exact getField_applyUpdates_sets a b k hb

-- # Round-trip of the serialization stand-in

theorem decNat_enc (n : Nat) (r : List Char) :
    decNat (encNat n ++ r) = some (n, r) := by
  induction n with
  | zero => simp [encNat, decNat]
  | succ n ih =>
    have h1 : encNat (n + 1) ++ r = '1' :: (encNat n ++ r) := by
      simp [encNat, List.replicate_succ]
    rw [h1]
    simp [decNat, ih]

theorem decStr_enc (s : String) (r : List Char) :
    decStr (encStr s ++ r) = some (s, r) := by
  have h1 : encStr s ++ r = encNat s.data.length ++ (s.data ++ r) := by
    simp [encStr]
  rw [h1]
  unfold decStr
  rw [decNat_enc]
  simp only [Option.some_bind]
  rw [if_pos (by simp)]
  rw [List.take_left, List.drop_left]

theorem decFiles_enc (fs : List GeneratedFile) (r : List Char) :
    decFiles fs.length ((fs.map encFile).flatten ++ r) = some (fs, r) := by
  induction fs with
  | nil => simp [decFiles]
  | cons f fs ih =>
    have h1 : ((f :: fs).map encFile).flatten ++ r =
        encStr f.path ++ (encStr f.content ++ ((fs.map encFile).flatten ++ r)) := by
      simp [encFile]
    rw [List.length_cons, h1]
    unfold decFiles
    rw [decStr_enc]
    simp only [Option.some_bind]
    rw [decStr_enc]
    simp only [Option.some_bind]
    rw [ih]
    rfl

theorem decVal_enc (v : JVal) (r : List Char) :
    decVal (encVal v ++ r) = some (v, r) := by
  cases v with
  | jnull => simp [encVal, decVal]
  | jbool b =>
    cases b <;> simp [encVal, decVal]
  | jnum n =>
    have h1 : encVal (.jnum n) ++ r = 'I' :: (encNat n ++ r) := by simp [encVal]
    rw [h1]
    simp [decVal, decNat_enc]
  | jstr s =>
    have h1 : encVal (.jstr s) ++ r = 'S' :: (encStr s ++ r) := by simp [encVal]
    rw [h1]
    simp [decVal, decStr_enc]
  | jfiles fs =>
    have h1 : encVal (.jfiles fs) ++ r =
        'A' :: (encNat fs.length ++ ((fs.map encFile).flatten ++ r)) := by
      simp [encVal]
    rw [h1]
    simp [decVal, decNat_enc, decFiles_enc]

theorem decEntries_enc (d : Doc) (r : List Char) :
    decEntries d.length
      ((d.map (fun e => encStr e.1 ++ encVal e.2)).flatten ++ r) = some (d, r) := by
  induction d with
  | nil => simp [decEntries]
  | cons e d ih =>
    have h1 : (((e :: d).map (fun e => encStr e.1 ++ encVal e.2)).flatten) ++ r =
        encStr e.1 ++ (encVal e.2 ++
          ((d.map (fun e => encStr e.1 ++ encVal e.2)).flatten ++ r)) := by
      simp
    rw [List.length_cons, h1]
    unfold decEntries
    rw [decStr_enc]
    simp only [Option.some_bind]
    rw [decVal_enc]
    simp only [Option.some_bind]
    rw [ih]
    rfl

theorem decDoc_enc (d : Doc) (r : List Char) :
    decDoc (encDoc d ++ r) = some (d, r) := by
  have h1 : encDoc d ++ r =
      encNat d.length ++
        ((d.map (fun e => encStr e.1 ++ encVal e.2)).flatten ++ r) := by
    simp [encDoc]
  rw [h1]
  unfold decDoc
  rw [decNat_enc]
  simp only [Option.some_bind]
  exact decEntries_enc d r

theorem parseDoc_enc (d : Doc) : parseDoc (encDoc d) = some d := by
  unfold parseDoc
  rw [show encDoc d = encDoc d ++ [] by simp, decDoc_enc]

-- # Chunk reassembly

theorem flatten_chunkify (s : List Char) : (chunkify s).flatten = s := by
  induction s using chunkify.induct with
  | case1 s h =>
    rw [chunkify, if_pos h]
    simp only [List.flatten_nil]
    exact (List.length_eq_zero.mp h).symm
  | case2 s h1 h2 =>
    rw [chunkify, if_neg h1, if_pos h2]
    simp
  | case3 s h1 h2 ih =>
    rw [chunkify, if_neg h1, if_neg h2]
    simp only [List.flatten_cons, ih]
    exact List.take_append_drop _ s

theorem setChunk_fresh (cs : List (Nat × List Char)) (i : Nat) (c : List Char)
    (h : ∀ p ∈ cs, p.1 < i) : setChunk cs i c = cs ++ [(i, c)] := by
  unfold setChunk
  congr 1
  apply List.filter_eq_self.mpr
  intro p hp
  simpa using Nat.ne_of_lt (h p hp)

theorem foldl_setChunk_enumFrom (l : List (List Char)) :
    ∀ (n : Nat) (cs : List (Nat × List Char)), (∀ p ∈ cs, p.1 < n) →
      (List.enumFrom n l).foldl (fun cs ic => setChunk cs ic.1 ic.2) cs =
        cs ++ List.enumFrom n l := by
  induction l with
  | nil => intro n cs _; simp [List.enumFrom]
  | cons c l ih =>
    intro n cs h
    rw [List.enumFrom_cons, List.foldl_cons]
    have hstep : setChunk cs n c = cs ++ [(n, c)] := setChunk_fresh cs n c h
    rw [hstep, ih (n + 1) (cs ++ [(n, c)]) ?bound]
    · simp
    case bound =>
      intro p hp
      rcases List.mem_append.mp hp with h1 | h2
      · exact Nat.lt_succ_of_lt (h p h1)
      · simp at h2
        simp [h2]

theorem sorted_enumFrom (l : List (List Char)) :
    ∀ n : Nat, List.Sorted (fun x y => x.1 ≤ y.1) (List.enumFrom n l) := by
  induction l with
  | nil => intro n; simp [List.enumFrom]
  | cons c l ih =>
    intro n
    rw [List.enumFrom_cons, List.sorted_cons]
    refine ⟨fun b hb => ?_, ih (n + 1)⟩
    have := (List.mem_enumFrom hb).1
    omega

theorem joinedChunks_of_enum (f : Doc) (chunks : List (List Char)) :
    joinedChunks ⟨f, (chunks.enum.foldl (fun cs ic => setChunk cs ic.1 ic.2) [])⟩
      = chunks.flatten := by
  unfold joinedChunks
  have h1 : chunks.enum.foldl (fun cs ic => setChunk cs ic.1 ic.2) [] =
      chunks.enum := by
    have := foldl_setChunk_enumFrom chunks 0 [] (by simp)
    simpa [List.enum] using this
  simp only [h1]
  have h2 : List.insertionSort (fun x y => x.1 ≤ y.1) chunks.enum = chunks.enum :=
    List.Sorted.insertionSort_eq (sorted_enumFrom chunks 0)
  rw [h2, List.enum_map_snd]

-- # The codec round trip, pointwise on fields

theorem getField_base_sets (base : Doc) (k : String)
    (hb : (base.map (fun e => e.1)).Nodup) :
    getField (applyUpdates [] (setsOf base)) k = getField base k := by
  rw [getField_applyUpdates_sets [] base k hb]
  cases hv : getField base k with
  | some v => rfl
  | none => rfl

theorem getField_loadLargeDoc_save (base large : Doc)
    (hb : (base.map (fun e => e.1)).Nodup)
    (hl : (large.map (fun e => e.1)).Nodup) (k : String)
    (hk1 : k ≠ "isChunked") (hk2 : k ≠ "chunkCount") :
    getField (loadLargeDoc (saveLargeDoc emptyDocState base large)) k =
      getField (mergeDoc base large) k := by
  unfold saveLargeDoc
  by_cases hlen : (encDoc large).length < CHUNK_SIZE
  · -- inline branch
    rw [if_pos hlen]
    have hsplit : setsOf base ++ setsOf large
        ++ [("isChunked", some (JVal.jbool false))] =
        (setsOf base ++ setsOf large) ++ [("isChunked", some (JVal.jbool false))] := by
      simp
    have hfields : applyUpdates emptyDocState.fields
        (setsOf base ++ setsOf large ++ [("isChunked", some (JVal.jbool false))]) =
        docSet (applyUpdates (applyUpdates [] (setsOf base)) (setsOf large))
          "isChunked" (JVal.jbool false) := by
      rw [hsplit, applyUpdates_append, applyUpdates_append]
      rfl
    have hic : getField (docSet (applyUpdates (applyUpdates [] (setsOf base))
        (setsOf large)) "isChunked" (JVal.jbool false)) "isChunked" =
        some (JVal.jbool false) := by
      rw [getField_docSet, if_pos rfl]
    unfold loadLargeDoc
    simp only [hfields, hic]
    rw [if_pos (by rfl)]
    rw [getField_docSet, if_neg hk1,
      getField_applyUpdates_sets _ _ _ hl, getField_mergeDoc _ _ _ hl,
      getField_base_sets base k hb]
  · -- chunked branch
    rw [if_neg hlen]
    have hsplit : setsOf base ++ large.map (fun e => (e.1, (none : Option JVal)))
        ++ [("isChunked", some (JVal.jbool true)),
            ("chunkCount", some (JVal.jnum (chunkify (encDoc large)).length))] =
        ((setsOf base ++ large.map (fun e => (e.1, (none : Option JVal))))
          ++ [("isChunked", some (JVal.jbool true))])
          ++ [("chunkCount", some (JVal.jnum (chunkify (encDoc large)).length))] := by
      simp
    have hfields : applyUpdates emptyDocState.fields
        (setsOf base ++ large.map (fun e => (e.1, (none : Option JVal)))
          ++ [("isChunked", some (JVal.jbool true)),
              ("chunkCount", some (JVal.jnum (chunkify (encDoc large)).length))]) =
        docSet (docSet (applyUpdates (applyUpdates [] (setsOf base))
            (large.map (fun e => (e.1, (none : Option JVal)))))
          "isChunked" (JVal.jbool true))
          "chunkCount" (JVal.jnum (chunkify (encDoc large)).length) := by
      rw [hsplit, applyUpdates_append, applyUpdates_append, applyUpdates_append]
      rfl
    set Y := applyUpdates (applyUpdates [] (setsOf base))
      (large.map (fun e => (e.1, (none : Option JVal)))) with hY
    set fields2 := docSet (docSet Y "isChunked" (JVal.jbool true))
      "chunkCount" (JVal.jnum (chunkify (encDoc large)).length) with hfields2
    have hic : getField fields2 "isChunked" = some (JVal.jbool true) := by
      rw [hfields2, getField_docSet, if_neg (by decide), getField_docSet,
        if_pos rfl]
    unfold loadLargeDoc
    simp only [hfields, hic]
    rw [if_neg (by decide)]
    have hjoin : joinedChunks ⟨fields2,
        ((chunkify (encDoc large)).enum.foldl
          (fun cs ic => setChunk cs ic.1 ic.2) emptyDocState.chunks)⟩ =
        encDoc large := by
      have := joinedChunks_of_enum fields2 (chunkify (encDoc large))
      rw [show emptyDocState.chunks = ([] : List (Nat × List Char)) from rfl]
      rw [this, flatten_chunkify]
    simp only [hjoin]
    have hne : encDoc large ≠ [] := by
      intro h
      rw [h] at hlen
      exact hlen (by simp [CHUNK_SIZE])
    rw [if_neg hne, parseDoc_enc]
    rw [getField_applyUpdates_sets _ _ _ hl, getField_mergeDoc _ _ _ hl]
    cases hv : getField large k with
    | some v => rfl
    | none =>
      have hnk : k ∉ large.map (fun e => e.1) :=
        (getField_eq_none_iff large k).mp hv
      rw [hfields2, getField_docSet, if_neg hk2, getField_docSet, if_neg hk1,
        hY, getField_applyUpdates_dels, if_neg hnk,
        getField_base_sets base k hb]


-- # Claim C2 (chunking codec round trip)

/-- C2, counterexample: `load(save(base, large))` is not literally
`{...base, ...large}` — the codec records its bookkeeping field
`isChunked` in the loaded record, so the claimed exact equality fails
already at a small inline-stored record. -/
theorem c2_roundtrip_exact_cex :
    getField (loadLargeDoc (saveLargeDoc emptyDocState
        [("name", JVal.jstr "p")] [("files", JVal.jfiles [])])) "isChunked"
      = some (JVal.jbool false)
    ∧ getField (mergeDoc [("name", JVal.jstr "p")] [("files", JVal.jfiles [])])
        "isChunked" = none := by
  decide


/-- C2, amended: for well-formed records (no duplicate keys),
`load(save(base, large))` agrees with `{...base, ...large}` on every field
other than the codec's bookkeeping fields `isChunked` and `chunkCount`,
in both the inline branch (serialized payload below `CHUNK_SIZE`) and the
chunked branch (payload split into indexed chunks and reassembled in index
order). -/
theorem c2_roundtrip (base large : Doc)
    (hb : (base.map (fun e => e.1)).Nodup)
    (hl : (large.map (fun e => e.1)).Nodup) (k : String)
    (hk1 : k ≠ "isChunked") (hk2 : k ≠ "chunkCount") :
    getField (loadLargeDoc (saveLargeDoc emptyDocState base large)) k =
      getField (mergeDoc base large) k :=
  getField_loadLargeDoc_save base large hb hl k hk1 hk2

/-- Witness for C2 at a concrete record. -/
theorem c2_roundtrip_witness :
    ((([("name", JVal.jstr "p")] : Doc).map (fun e => e.1)).Nodup)
    ∧ ((([("files", JVal.jfiles [⟨"A", "x"⟩])] : Doc).map (fun e => e.1)).Nodup)
    ∧ ("files" : String) ≠ "isChunked"
    ∧ ("files" : String) ≠ "chunkCount"
    ∧ getField (loadLargeDoc (saveLargeDoc emptyDocState
        [("name", JVal.jstr "p")] [("files", JVal.jfiles [⟨"A", "x"⟩])])) "files"
      = getField (mergeDoc [("name", JVal.jstr "p")]
          [("files", JVal.jfiles [⟨"A", "x"⟩])]) "files" :=
  ⟨by decide, by decide, by decide, by decide,
    c2_roundtrip [("name", JVal.jstr "p")] [("files", JVal.jfiles [⟨"A", "x"⟩])]
      (by decide) (by decide) "files" (by decide) (by decide)⟩


-- # Claim C6 (corrupt chunked load)

/-- C6, counterexample: on a chunked record whose chunks are missing
(reassembled payload empty), and on one whose reassembled payload fails to
parse, `loadLargeDoc` does not fail — it returns exactly the parent
record's fields as a partially-populated result (the code only logs to the
console). -/
theorem c6_corrupt_load_cex :
    loadLargeDoc ⟨[("isChunked", JVal.jbool true), ("name", JVal.jstr "p")], []⟩
      = [("isChunked", JVal.jbool true), ("name", JVal.jstr "p")]
    ∧ loadLargeDoc ⟨[("isChunked", JVal.jbool true)], [(0, ['z'])]⟩
      = [("isChunked", JVal.jbool true)] := by
  decide


/-- C6, amended: for every chunked record whose reassembled chunk payload
is empty or fails to parse, the load falls back to the parent record's
fields alone (the error is only logged, never surfaced, and the large
fields are silently absent from the result). -/
theorem c6_corrupt_load (st : DocState)
    (h1 : jsTruthy (getField st.fields "isChunked") = true)
    (h2 : joinedChunks st = [] ∨ parseDoc (joinedChunks st) = none) :
    loadLargeDoc st = st.fields := by
  show (if (!jsTruthy (getField st.fields "isChunked")) = true then st.fields
    else
      if joinedChunks st = [] then st.fields
      else
        match parseDoc (joinedChunks st) with
        | some parsedLargeData => applyUpdates st.fields (setsOf parsedLargeData)
        | none => st.fields) = st.fields
  rw [h1]
  simp only [Bool.not_true, Bool.false_eq_true, if_false]
  by_cases hc : joinedChunks st = []
  · rw [if_pos hc]
  · rw [if_neg hc]
    rcases h2 with h2 | h2
    · exact absurd h2 hc
    · rw [h2]

/-- Witness for C6 at a concrete corrupt record. -/
theorem c6_corrupt_load_witness :
    jsTruthy (getField (DocState.mk [("isChunked", JVal.jbool true)]
        [(0, ['z'])]).fields "isChunked") = true
    ∧ (joinedChunks ⟨[("isChunked", JVal.jbool true)], [(0, ['z'])]⟩ = []
        ∨ parseDoc (joinedChunks ⟨[("isChunked", JVal.jbool true)], [(0, ['z'])]⟩)
          = none)
    ∧ loadLargeDoc ⟨[("isChunked", JVal.jbool true)], [(0, ['z'])]⟩
      = [("isChunked", JVal.jbool true)] :=
  ⟨by decide, Or.inr (by decide),
    c6_corrupt_load ⟨[("isChunked", JVal.jbool true)], [(0, ['z'])]⟩
      (by decide) (Or.inr (by decide))⟩

-- # Claim C9 (checkpoint immutability)

/-- Map a sanitized copy of a file list back to itself. -/
theorem sanitize_files_id (fs : List GeneratedFile) :
    fs.map (fun f => GeneratedFile.mk f.path f.content) = fs := by
  induction fs with
  | nil => rfl
  | cons f fs ih => simp [ih]


/-- C9: a checkpoint's stored files are an independent copy.  Creating a
checkpoint appends a checkpoint document built only from the files passed
at creation time; a subsequent package update (persisting any new live
file collection) leaves the checkpoint documents unchanged, and loading
the stored checkpoint returns exactly the files as they were at creation
time, whether or not the payload was chunked. -/
theorem c9_checkpoint_immutable (st : ProjectStore) (msg : String)
    (ts ts2 : JVal) (files newFiles : List GeneratedFile) :
    (updatePackageOp (createCheckpointOp st msg ts files) ts2 newFiles).checkpointDocs
      = st.checkpointDocs ++ [createCheckpointDoc msg ts files]
    ∧ loadCheckpointFiles (createCheckpointDoc msg ts files) = files := by
  constructor
  · rfl
  · show (match getField (loadLargeDoc (createCheckpointDoc msg ts files))
        "files" with
      | some (.jfiles fs) => fs.map (fun f => GeneratedFile.mk f.path f.content)
      | _ => []) = files
    unfold createCheckpointDoc
    rw [getField_loadLargeDoc_save _ _ (by simp) (by simp) "files"
      (by decide) (by decide)]
    have hm : getField (mergeDoc [("message", JVal.jstr msg), ("createdAt", ts)]
        [("files", JVal.jfiles files)]) "files" = some (JVal.jfiles files) := rfl
    rw [hm]
    exact sanitize_files_id files

-- # Lemmas on the patch reconciler

theorem jsMapGet_map_pair {α κ ν : Type} [DecidableEq κ] (g : α → κ) (h : α → ν)
    (l : List α) (k : κ) :
    jsMapGet (l.map (fun x => (g x, h x))) k =
      (l.find? (fun x => g x == k)).map h := by
  unfold jsMapGet
  rw [List.find?_map, Option.map_map]
  have h1 : List.find? ((fun (e : κ × ν) => e.1 == k) ∘ fun x => (g x, h x)) l
      = List.find? (fun x => g x == k) l :=
    findCongr (fun x _ => rfl)
  rw [h1, show ((fun (e : κ × ν) => e.2) ∘ fun x => (g x, h x)) = h from
    funext (fun x => rfl)]

theorem find?_values {κ ν : Type} [DecidableEq κ] (keyOf : ν → κ)
    (m : List (κ × ν)) (inv : ∀ e ∈ m, keyOf e.2 = e.1) (k : κ) :
    (m.map (fun e => e.2)).find? (fun v => keyOf v == k) = jsMapGet m k := by
  unfold jsMapGet
  rw [List.find?_map]
  exact congrArg _ (findCongr (fun e he => by rw [Function.comp_apply, inv e he]))

theorem inv_jsMapSet {κ ν : Type} [DecidableEq κ] (keyOf : ν → κ)
    {m : List (κ × ν)} {k : κ} {v : ν} (hv : keyOf v = k)
    (inv : ∀ e ∈ m, keyOf e.2 = e.1) :
    ∀ e ∈ jsMapSet m k v, keyOf e.2 = e.1 := by
  intro e he
  unfold jsMapSet at he
  by_cases hany : (m.any (fun e => e.1 == k)) = true
  · rw [if_pos hany] at he
    obtain ⟨e', he', heq⟩ := List.mem_map.mp he
    by_cases h : e'.1 = k
    · rw [if_pos (by simpa using h)] at heq
      rw [← heq]
      exact hv
    · rw [if_neg (by simpa using h)] at heq
      rw [← heq]
      exact inv e' he'
  · rw [if_neg hany] at he
    rcases List.mem_append.mp he with h1 | h2
    · exact inv e h1
    · simp only [List.mem_singleton] at h2
      rw [h2]
      exact hv

theorem inv_jsMapDel {κ ν : Type} [DecidableEq κ] (keyOf : ν → κ)
    {m : List (κ × ν)} {k : κ} (inv : ∀ e ∈ m, keyOf e.2 = e.1) :
    ∀ e ∈ jsMapDel m k, keyOf e.2 = e.1 :=
  fun e he => inv e (List.mem_of_mem_filter he)

theorem inv_applyPatchStep {m : List (String × GeneratedFile)}
    (inv : ∀ e ∈ m, e.2.path = e.1) (op : FilePatch) :
    ∀ e ∈ applyPatchStep m op, e.2.path = e.1 := by
  cases op with
  | add q c =>
    exact inv_jsMapSet (fun f : GeneratedFile => f.path) rfl inv
  | update q c =>
    exact inv_jsMapSet (fun f : GeneratedFile => f.path) rfl inv
  | delete q =>
    exact inv_jsMapDel (fun f : GeneratedFile => f.path) inv

theorem content_applyPatchStep (m : List (String × GeneratedFile))
    (op : FilePatch) (p : String) :
    (jsMapGet (applyPatchStep m op) p).map (fun f => f.content) =
      patchEffect p ((jsMapGet m p).map (fun f => f.content)) op := by
  cases op with
  | add q c =>
    show (jsMapGet (jsMapSet m q ⟨q, c⟩) p).map (fun f => f.content) =
      if q = p then some c else (jsMapGet m p).map (fun f => f.content)
    rw [jsMapGet_set]
    by_cases h : q = p
    · rw [if_pos h.symm, if_pos h]
      rfl
    · rw [if_neg (fun hh => h hh.symm), if_neg h]
  | update q c =>
    show (jsMapGet (jsMapSet m q ⟨q, c⟩) p).map (fun f => f.content) =
      if q = p then some c else (jsMapGet m p).map (fun f => f.content)
    rw [jsMapGet_set]
    by_cases h : q = p
    · rw [if_pos h.symm, if_pos h]
      rfl
    · rw [if_neg (fun hh => h hh.symm), if_neg h]
  | delete q =>
    show (jsMapGet (jsMapDel m q) p).map (fun f => f.content) =
      if q = p then none else (jsMapGet m p).map (fun f => f.content)
    rw [jsMapGet_del]
    by_cases h : q = p
    · rw [if_pos h.symm, if_pos h]
      rfl
    · rw [if_neg (fun hh => h hh.symm), if_neg h]

theorem content_foldl_patch (patch : List FilePatch) :
    ∀ (m : List (String × GeneratedFile)) (p : String),
      (jsMapGet (patch.foldl applyPatchStep m) p).map (fun f => f.content) =
        patch.foldl (patchEffect p) ((jsMapGet m p).map (fun f => f.content)) := by
  induction patch with
  | nil => intro m p; rfl
  | cons op patch ih =>
    intro m p
    rw [List.foldl_cons, List.foldl_cons, ih, content_applyPatchStep]

theorem inv_foldl_patch (patch : List FilePatch) :
    ∀ (m : List (String × GeneratedFile)), (∀ e ∈ m, e.2.path = e.1) →
      ∀ e ∈ patch.foldl applyPatchStep m, e.2.path = e.1 := by
  induction patch with
  | nil => intro m inv; exact inv
  | cons op patch ih =>
    intro m inv
    rw [List.foldl_cons]
    exact ih _ (inv_applyPatchStep inv op)


-- # Claim C3 (patch apply: upsert, delete no-op, later wins)

/-- C3: the content of the reconciled collection at any path is obtained
from the current content at that path by folding the patch operations in
order: `add` and `update` both upsert (the path ends up present with the
operation's content whether or not it existed before), `delete` removes
the path (a no-op when absent), and later operations on the same path win
over earlier ones.  The hypothesis is the File Collection invariant
(unique paths), under which the association-list model coincides with the
JS `Map` the source builds. -/
theorem c3_patch_apply (cur : List GeneratedFile) (patch : List FilePatch)
    (p : String) (hnd : (cur.map (fun f => f.path)).Nodup) :
    fileLookup (applyCodePatch cur patch) p =
      patch.foldl (patchEffect p) (fileLookup cur p) := by
  have hinv : ∀ e ∈ patch.foldl applyPatchStep (cur.map (fun f => (f.path, f))),
      e.2.path = e.1 :=
    inv_foldl_patch patch _ (by
      intro e he
      obtain ⟨f, _, hf⟩ := List.mem_map.mp he
      rw [← hf])
  show (((patch.foldl applyPatchStep (cur.map (fun f => (f.path, f)))).map
      (fun e => e.2)).find? (fun f => f.path == p)).map (fun f => f.content) =
    patch.foldl (patchEffect p)
      ((cur.find? (fun f => f.path == p)).map (fun f => f.content))
  rw [find?_values (fun f : GeneratedFile => f.path) _ hinv p,
    content_foldl_patch,
    jsMapGet_map_pair (fun f : GeneratedFile => f.path) (fun f => f) cur p]
  simp [Option.map_map, Function.comp]


/-- Witness for C3: updating a path that is absent creates it (upsert), a
later operation on the same path wins, and deleting a missing path is a
no-op. -/
theorem c3_patch_apply_witness :
    ((([⟨"A", "1"⟩] : List GeneratedFile).map (fun f => f.path)).Nodup)
    ∧ fileLookup (applyCodePatch [⟨"A", "1"⟩]
        [.update "X" "v2", .add "A" "2", .update "A" "3", .delete "missing"]) "X"
      = some "v2" :=
  ⟨by decide,
    by
      rw [c3_patch_apply [⟨"A", "1"⟩]
        [.update "X" "v2", .add "A" "2", .update "A" "3", .delete "missing"]
        "X" (by decide)]
      decide⟩


-- # Claim C10 (unrecognized op tags are silent no-ops)

/-- C10: a patch entry whose `op` tag is none of `add`, `update`, `delete`
falls through the `switch` without effect and without error: the result of
applying the patch equals the result of applying the same patch with that
entry removed. -/
theorem c10_unknown_op_noop (cur : List GeneratedFile)
    (before after : List RawPatchOp) (e : RawPatchOp)
    (h1 : e.op ≠ "add") (h2 : e.op ≠ "update") (h3 : e.op ≠ "delete") :
    applyCodePatchRT cur (before ++ e :: after) =
      applyCodePatchRT cur (before ++ after) := by
  have hstep : ∀ m, applyPatchStepRT m e = m := by
    intro m
    unfold applyPatchStepRT
    rw [if_neg (fun h => h.elim h1 h2), if_neg h3]
  show ((before ++ e :: after).foldl applyPatchStepRT
      (cur.map (fun f => (some f.path, RawFile.mk (some f.path) (some f.content))))).map
        (fun e => e.2) =
    ((before ++ after).foldl applyPatchStepRT
      (cur.map (fun f => (some f.path, RawFile.mk (some f.path) (some f.content))))).map
        (fun e => e.2)
  rw [List.foldl_append, List.foldl_append, List.foldl_cons, hstep]

/-- Witness for C10 at a concrete unrecognized tag. -/
theorem c10_unknown_op_noop_witness :
    (RawPatchOp.mk "rename" (some "A") none).op ≠ "add"
    ∧ (RawPatchOp.mk "rename" (some "A") none).op ≠ "update"
    ∧ (RawPatchOp.mk "rename" (some "A") none).op ≠ "delete"
    ∧ applyCodePatchRT [⟨"A", "1"⟩]
        ([⟨"update", some "A", some "2"⟩] ++ ⟨"rename", some "A", none⟩ ::
          [⟨"delete", some "A", none⟩]) =
      applyCodePatchRT [⟨"A", "1"⟩]
        ([⟨"update", some "A", some "2"⟩] ++ [⟨"delete", some "A", none⟩]) :=
  ⟨by decide, by decide, by decide,
    c10_unknown_op_noop [⟨"A", "1"⟩] [⟨"update", some "A", some "2"⟩]
      [⟨"delete", some "A", none⟩] ⟨"rename", some "A", none⟩
      (by decide) (by decide) (by decide)⟩


-- # Claim C7 (malformed patch entries)

/-- C7, counterexample: a patch containing a malformed entry (an `update`
with no `path`) is not rejected — the whole patch is applied: the
well-formed first operation takes effect and the malformed entry upserts a
record under the undefined path, so patch application is neither failing
nor all-or-nothing. -/
theorem c7_validation_cex :
    applyCodePatchRT []
        [⟨"add", some "A", some "1"⟩, ⟨"update", none, some "x"⟩] =
      [⟨some "A", some "1"⟩, ⟨none, some "x"⟩] := by
  decide

theorem rawstep_effect (m : List (Option String × RawFile)) (op : RawPatchOp)
    (k : Option String) :
    jsMapGet (applyPatchStepRT m op) k = rawPatchEffect k (jsMapGet m k) op := by
  unfold applyPatchStepRT rawPatchEffect rawFileOfOp
  by_cases hau : op.op = "add" ∨ op.op = "update"
  · rw [if_pos hau, jsMapGet_set]
    by_cases hp : op.path = k
    · rw [if_pos hp.symm, if_pos ⟨hau, hp⟩, hp]
    · rw [if_neg (fun h => hp h.symm), if_neg (fun h => hp h.2),
        if_neg (fun h => hp h.2)]
  · rw [if_neg hau]
    by_cases hd : op.op = "delete"
    · rw [if_pos hd, jsMapGet_del]
      by_cases hp : op.path = k
      · rw [if_pos hp.symm, if_neg (fun h => hau h.1), if_pos ⟨hd, hp⟩]
      · rw [if_neg (fun h => hp h.symm), if_neg (fun h => hau h.1),
          if_neg (fun h => hp h.2)]
    · rw [if_neg hd, if_neg (fun h => hau h.1), if_neg (fun h => hd h.1)]

theorem rawfold_effect (patch : List RawPatchOp) :
    ∀ (m : List (Option String × RawFile)) (k : Option String),
      jsMapGet (patch.foldl applyPatchStepRT m) k =
        patch.foldl (rawPatchEffect k) (jsMapGet m k) := by
  induction patch with
  | nil => intro m k; rfl
  | cons op patch ih =>
    intro m k
    rw [List.foldl_cons, List.foldl_cons, ih, rawstep_effect]

theorem inv_applyPatchStepRT {m : List (Option String × RawFile)}
    (inv : ∀ e ∈ m, e.2.path = e.1) (op : RawPatchOp) :
    ∀ e ∈ applyPatchStepRT m op, e.2.path = e.1 := by
  unfold applyPatchStepRT
  by_cases hau : op.op = "add" ∨ op.op = "update"
  · rw [if_pos hau]
    exact inv_jsMapSet (fun f : RawFile => f.path) rfl inv
  · rw [if_neg hau]
    by_cases hd : op.op = "delete"
    · rw [if_pos hd]
      exact inv_jsMapDel (fun f : RawFile => f.path) inv
    · rw [if_neg hd]
      exact inv

theorem inv_foldl_patchRT (patch : List RawPatchOp) :
    ∀ (m : List (Option String × RawFile)), (∀ e ∈ m, e.2.path = e.1) →
      ∀ e ∈ patch.foldl applyPatchStepRT m, e.2.path = e.1 := by
  induction patch with
  | nil => intro m inv; exact inv
  | cons op patch ih =>
    intro m inv
    rw [List.foldl_cons]
    exact ih _ (inv_applyPatchStepRT inv op)


/-- C7, amended: patch application performs no validation and is never
all-or-nothing.  Every operation is applied in order, malformed or not:
at any (possibly undefined) path key, the result is the fold of the
per-operation effects — an `add`/`update` with a missing `content` stores
an undefined content, one with a missing `path` upserts a record under the
undefined key, and well-formed operations of the same patch still take
effect.  The hypothesis is the File Collection invariant (unique paths)
of the current collection. -/
theorem c7_no_validation (cur : List GeneratedFile) (patch : List RawPatchOp)
    (k : Option String) (hnd : (cur.map (fun f => f.path)).Nodup) :
    rawLookup (applyCodePatchRT cur patch) k =
      patch.foldl (rawPatchEffect k)
        ((cur.find? (fun f => decide ((some f.path : Option String) = k))).map
          (fun f => RawFile.mk (some f.path) (some f.content))) := by
  have hinv : ∀ e ∈ patch.foldl applyPatchStepRT
      (cur.map (fun f => (some f.path, RawFile.mk (some f.path) (some f.content)))),
      e.2.path = e.1 :=
    inv_foldl_patchRT patch _ (by
      intro e he
      obtain ⟨f, _, hf⟩ := List.mem_map.mp he
      rw [← hf])
  have hfv : ((patch.foldl applyPatchStepRT
      (cur.map (fun f => (some f.path, RawFile.mk (some f.path) (some f.content))))).map
      (fun e => e.2)).find? (fun f => decide (f.path = k)) =
      jsMapGet (patch.foldl applyPatchStepRT
        (cur.map (fun f => (some f.path, RawFile.mk (some f.path) (some f.content))))) k :=
    find?_values (fun f : RawFile => f.path) _ hinv k
  have hmp : jsMapGet
      (cur.map (fun f => (some f.path, RawFile.mk (some f.path) (some f.content)))) k =
      (cur.find? (fun f => decide ((some f.path : Option String) = k))).map
        (fun f => RawFile.mk (some f.path) (some f.content)) :=
    jsMapGet_map_pair _ _ cur k
  show ((patch.foldl applyPatchStepRT
      (cur.map (fun f => (some f.path, RawFile.mk (some f.path) (some f.content))))).map
      (fun e => e.2)).find? (fun f => decide (f.path = k)) = _
  rw [hfv, rawfold_effect, hmp]

/-- Witness for C7: a malformed entry is applied rather than rejected. -/
theorem c7_no_validation_witness :
    ((([] : List GeneratedFile).map (fun f => f.path)).Nodup)
    ∧ rawLookup (applyCodePatchRT []
        [⟨"add", some "A", some "1"⟩, ⟨"update", none, some "x"⟩]) none
      = some ⟨none, some "x"⟩ :=
  ⟨by decide,
    by
      rw [c7_no_validation []
        [⟨"add", some "A", some "1"⟩, ⟨"update", none, some "x"⟩] none
        (by decide)]
      decide⟩


-- # Claim C5 (changed-path set)

/-- C5, counterexample: after a model patch application,
`handleSendMessage` records `new Set(patch.map(p => p.path))` — here the
patch rewrites `A` with its existing content, so the recorded set is
`{"A"}` although the collection is unchanged and the exact changed-path
set is empty. -/
theorem c5_changed_paths_cex :
    patchPaths [FilePatch.update "A" "x"] = {"A"}
    ∧ applyCodePatch [⟨"A", "x"⟩] [FilePatch.update "A" "x"] = [⟨"A", "x"⟩]
    ∧ findChangedFiles [⟨"A", "x"⟩]
        (applyCodePatch [⟨"A", "x"⟩] [FilePatch.update "A" "x"]) = ∅ := by
  decide


/-- C5, amended: only the revert path recomputes the Changed-Path Set
exactly: `findChangedFiles old new` contains precisely the paths present
in the new collection whose content differs from (or is absent in) the old
one.  After a model patch application the set is instead the set of all
paths named in the patch (which may include paths with unchanged content,
as the counterexample shows, and paths of delete operations), and a manual
edit adds its path unconditionally.  The hypotheses are the File
Collection invariant (unique paths). -/
theorem c5_find_changed_files (oldFiles newFiles : List GeneratedFile)
    (hold : (oldFiles.map (fun f => f.path)).Nodup)
    (hnew : (newFiles.map (fun f => f.path)).Nodup) (p : String) :
    p ∈ findChangedFiles oldFiles newFiles ↔
      (fileLookup newFiles p).isSome
        ∧ fileLookup newFiles p ≠ fileLookup oldFiles p := by
  unfold findChangedFiles
  rw [List.mem_toFinset, List.mem_filter, List.mem_dedup]
  constructor
  · rintro ⟨hmem, hcond⟩
    obtain ⟨f, hf, hfp⟩ := List.mem_map.mp hmem
    have hsome : (fileLookup newFiles p).isSome := by
      unfold fileLookup
      rw [Option.isSome_map']
      rw [List.find?_isSome]
      exact ⟨f, hf, by simpa using hfp⟩
    refine ⟨hsome, ?_⟩
    simp only [Bool.or_eq_true, Bool.not_eq_true', bne_iff_ne] at hcond
    rcases hcond with hcond | hcond
    · have : fileLookup oldFiles p = none := by
        unfold fileLookup
        rw [Option.map_eq_none', List.find?_eq_none]
        intro x hx hpx
        have : oldFiles.any (fun f => f.path == p) = true :=
          List.any_eq_true.mpr ⟨x, hx, hpx⟩
        rw [this] at hcond
        cases hcond
      rw [this]
      intro h
      rw [h] at hsome
      cases hsome
    · exact fun h => hcond h.symm
  · rintro ⟨hsome, hne⟩
    unfold fileLookup at hsome
    rw [Option.isSome_map', List.find?_isSome] at hsome
    obtain ⟨f, hf, hfp⟩ := hsome
    refine ⟨List.mem_map.mpr ⟨f, hf, by simpa using hfp⟩, ?_⟩
    simp only [Bool.or_eq_true, Bool.not_eq_true', bne_iff_ne]
    exact Or.inr (fun h => hne h.symm)

/-- Witness for C5 at concrete collections. -/
theorem c5_find_changed_files_witness :
    ((([⟨"A", "x"⟩, ⟨"B", "y"⟩] : List GeneratedFile).map (fun f => f.path)).Nodup)
    ∧ ((([⟨"A", "x"⟩, ⟨"B", "z"⟩, ⟨"C", "w"⟩] : List GeneratedFile).map
        (fun f => f.path)).Nodup)
    ∧ (("B" ∈ findChangedFiles [⟨"A", "x"⟩, ⟨"B", "y"⟩]
          [⟨"A", "x"⟩, ⟨"B", "z"⟩, ⟨"C", "w"⟩]) ↔
        ((fileLookup [⟨"A", "x"⟩, ⟨"B", "z"⟩, ⟨"C", "w"⟩] "B").isSome
          ∧ fileLookup [⟨"A", "x"⟩, ⟨"B", "z"⟩, ⟨"C", "w"⟩] "B"
            ≠ fileLookup [⟨"A", "x"⟩, ⟨"B", "y"⟩] "B")) :=
  ⟨by decide, by decide,
    c5_find_changed_files [⟨"A", "x"⟩, ⟨"B", "y"⟩]
      [⟨"A", "x"⟩, ⟨"B", "z"⟩, ⟨"C", "w"⟩] (by decide) (by decide) "B"⟩

-- # Brute-force LCS reference and correctness of the DP table

theorem le_foldr_max {x : Nat} : ∀ {L : List Nat}, x ∈ L → x ≤ L.foldr max 0 := by
  intro L
  induction L with
  | nil => intro h; cases h
  | cons y L ih =>
    intro h
    rcases List.mem_cons.mp h with h | h
    · rw [h, List.foldr_cons]
      exact Nat.le_max_left _ _
    · exact Nat.le_trans (ih h) (Nat.le_max_right _ _)

theorem foldr_max_le {n : Nat} : ∀ {L : List Nat}, (∀ x ∈ L, x ≤ n) →
    L.foldr max 0 ≤ n := by
  intro L
  induction L with
  | nil => intro _; exact Nat.zero_le n
  | cons y L ih =>
    intro h
    rw [List.foldr_cons]
    exact Nat.max_le.mpr ⟨h y (by simp), ih (fun x hx => h x (by simp [hx]))⟩

theorem foldr_max_mem : ∀ L : List Nat, L.foldr max 0 = 0 ∨ L.foldr max 0 ∈ L := by
  intro L
  induction L with
  | nil => exact Or.inl rfl
  | cons y L ih =>
    rw [List.foldr_cons]
    by_cases h : L.foldr max 0 ≤ y
    · right
      rw [Nat.max_eq_left h]
      simp
    · rw [Nat.max_eq_right (Nat.le_of_not_le h)]
      rcases ih with h0 | hmem
      · exact Or.inl h0
      · exact Or.inr (by simp [hmem])

theorem le_bruteLcs {a b l : List String} (h1 : l.Sublist a) (h2 : l.Sublist b) :
    l.length ≤ bruteLcs a b :=
  le_foldr_max (List.mem_map.mpr
    ⟨l, List.mem_filter.mpr ⟨List.mem_sublists.mpr h1, by simpa using h2⟩, rfl⟩)

theorem bruteLcs_le {a b : List String} {n : Nat}
    (h : ∀ l : List String, l.Sublist a → l.Sublist b → l.length ≤ n) :
    bruteLcs a b ≤ n := by
  apply foldr_max_le
  intro x hx
  obtain ⟨l, hl, hlen⟩ := List.mem_map.mp hx
  have hf := List.mem_filter.mp hl
  exact hlen ▸ h l (List.mem_sublists.mp hf.1) (by simpa using hf.2)

theorem exists_common_bruteLcs (a b : List String) :
    ∃ l : List String, l.Sublist a ∧ l.Sublist b ∧ l.length = bruteLcs a b := by
  have h := foldr_max_mem
    ((a.sublists.filter (fun l => decide (l.Sublist b))).map List.length)
  rcases h with h0 | hmem
  · refine ⟨[], List.nil_sublist a, List.nil_sublist b, ?_⟩
    unfold bruteLcs
    rw [h0]
    rfl
  · obtain ⟨l, hl, hlen⟩ := List.mem_map.mp hmem
    have hf := List.mem_filter.mp hl
    exact ⟨l, List.mem_sublists.mp hf.1, by simpa using hf.2, hlen⟩

theorem dpLcs_nil_left (b : List String) : dpLcs [] b = 0 := by
  simp [dpLcs]

theorem dpLcs_nil_right (x : String) (xs : List String) :
    dpLcs (x :: xs) [] = 0 := by
  simp [dpLcs]

theorem dpLcs_cons_cons (x : String) (xs : List String) (y : String)
    (ys : List String) :
    dpLcs (x :: xs) (y :: ys) =
      if x = y then dpLcs xs ys + 1
      else max (dpLcs xs (y :: ys)) (dpLcs (x :: xs) ys) := by
  simp only [dpLcs]

theorem dpLcs_eq_bruteLcs_aux : ∀ (n : Nat) (a b : List String),
    a.length + b.length ≤ n → dpLcs a b = bruteLcs a b := by
  intro n
  induction n with
  | zero =>
    intro a b hn
    have ha : a = [] := List.length_eq_zero.mp (by omega)
    have hb : b = [] := List.length_eq_zero.mp (by omega)
    subst ha
    subst hb
    rw [dpLcs_nil_left]
    have h1 : bruteLcs [] [] ≤ 0 := bruteLcs_le (fun l hl _ => by
      rw [List.sublist_nil.mp hl]
      exact Nat.le_refl 0)
    omega
  | succ n ih =>
    intro a b hn
    cases a with
    | nil =>
      rw [dpLcs_nil_left]
      have h1 : bruteLcs [] b ≤ 0 := bruteLcs_le (fun l hl _ => by
        rw [List.sublist_nil.mp hl]
        exact Nat.le_refl 0)
      omega
    | cons x xs =>
      cases b with
      | nil =>
        rw [dpLcs_nil_right]
        have h1 : bruteLcs (x :: xs) [] ≤ 0 := bruteLcs_le (fun l _ hl => by
          rw [List.sublist_nil.mp hl]
          exact Nat.le_refl 0)
        omega
      | cons y ys =>
        simp only [List.length_cons] at hn
        rw [dpLcs_cons_cons]
        by_cases heq : x = y
        · subst heq
          rw [if_pos rfl, ih xs ys (by omega)]
          apply Nat.le_antisymm
          · obtain ⟨l, h1, h2, hlen⟩ := exists_common_bruteLcs xs ys
            have hle := le_bruteLcs (List.cons_sublist_cons.mpr h1)
              (List.cons_sublist_cons.mpr h2 :
                (x :: l).Sublist (x :: ys))
            rw [List.length_cons, hlen] at hle
            exact hle
          · apply bruteLcs_le
            intro l hl1 hl2
            cases l with
            | nil => simp
            | cons z l' =>
              rcases List.sublist_cons_iff.mp hl1 with hA | ⟨r, hr, hrs⟩
              · rcases List.sublist_cons_iff.mp hl2 with hB | ⟨r2, hr2, hrs2⟩
                · exact Nat.le_succ_of_le (le_bruteLcs hA hB)
                · injection hr2 with h1 h2
                  rw [← h2] at hrs2
                  have hl'xs : l'.Sublist xs :=
                    (List.sublist_cons_self z l').trans hA
                  rw [List.length_cons]
                  exact Nat.succ_le_succ (le_bruteLcs hl'xs hrs2)
              · injection hr with h1 h2
                rw [← h2] at hrs
                rcases List.sublist_cons_iff.mp hl2 with hB | ⟨r2, hr2, hrs2⟩
                · have hl'ys : l'.Sublist ys :=
                    (List.sublist_cons_self z l').trans hB
                  rw [List.length_cons]
                  exact Nat.succ_le_succ (le_bruteLcs hrs hl'ys)
                · injection hr2 with h3 h4
                  rw [← h4] at hrs2
                  rw [List.length_cons]
                  exact Nat.succ_le_succ (le_bruteLcs hrs hrs2)
        · rw [if_neg heq, ih xs (y :: ys) (by simp; omega),
            ih (x :: xs) ys (by simp; omega)]
          apply Nat.le_antisymm
          · apply Nat.max_le.mpr
            constructor
            · obtain ⟨l, h1, h2, hlen⟩ := exists_common_bruteLcs xs (y :: ys)
              have hle := le_bruteLcs (h1.trans (List.sublist_cons_self x xs)) h2
              omega
            · obtain ⟨l, h1, h2, hlen⟩ := exists_common_bruteLcs (x :: xs) ys
              have hle := le_bruteLcs h1 (h2.trans (List.sublist_cons_self y ys))
              omega
          · apply bruteLcs_le
            intro l hl1 hl2
            rcases List.sublist_cons_iff.mp hl1 with hA | ⟨r, hr, hrs⟩
            · exact Nat.le_trans (le_bruteLcs hA hl2) (Nat.le_max_left _ _)
            · rcases List.sublist_cons_iff.mp hl2 with hB | ⟨r2, hr2, hrs2⟩
              · exact Nat.le_trans (le_bruteLcs hl1 hB) (Nat.le_max_right _ _)
              · rw [hr] at hr2
                injection hr2 with hxy
                exact absurd hxy heq

theorem dpLcs_eq_bruteLcs (a b : List String) : dpLcs a b = bruteLcs a b :=
  dpLcs_eq_bruteLcs_aux (a.length + b.length) a b (Nat.le_refl _)

theorem reverse_take_succ (l : List String) (i : Nat) (h : i < l.length) :
    (l.take (i + 1)).reverse = l.getD i "" :: (l.take i).reverse := by
  have h1 : l.take (i + 1) = l.take i ++ [l.getD i ""] := by
    rw [List.take_succ, List.getElem?_eq_getElem h]
    simp [List.getD_eq_getElem?_getD, List.getElem?_eq_getElem h]
  rw [h1, List.reverse_append]
  simp

theorem lcsTable_eq_dp (a b : List String) :
    ∀ i, i ≤ a.length → ∀ j, j ≤ b.length →
      lcsTable a b i j = dpLcs ((a.take i).reverse) ((b.take j).reverse) := by
  intro i
  induction i with
  | zero =>
    intro _ j _
    show (0 : Nat) = dpLcs ((a.take 0).reverse) ((b.take j).reverse)
    rw [show (a.take 0).reverse = [] from rfl, dpLcs_nil_left]
  | succ i ihi =>
    intro hi j
    have hi' : i < a.length := by omega
    induction j with
    | zero =>
      intro _
      rw [reverse_take_succ a i hi',
        show (b.take 0).reverse = [] from rfl, dpLcs_nil_right]
      rfl
    | succ j ihj =>
      intro hj
      have hj' : j < b.length := by omega
      have hrow : lcsTable a b (i + 1) (j + 1) =
          if a.getD i "" = b.getD j "" then lcsTable a b i j + 1
          else max (lcsTable a b i (j + 1)) (lcsTable a b (i + 1) j) := by
        rfl
      have hdp : dpLcs ((a.take (i + 1)).reverse) ((b.take (j + 1)).reverse) =
          if a.getD i "" = b.getD j "" then
            dpLcs ((a.take i).reverse) ((b.take j).reverse) + 1
          else max (dpLcs ((a.take i).reverse) ((b.take (j + 1)).reverse))
            (dpLcs ((a.take (i + 1)).reverse) ((b.take j).reverse)) := by
        rw [reverse_take_succ a i hi', reverse_take_succ b j hj',
          dpLcs_cons_cons, ← reverse_take_succ a i hi',
          ← reverse_take_succ b j hj']
      rw [hrow, hdp]
      by_cases heq : a.getD i "" = b.getD j ""
      · rw [if_pos heq, if_pos heq, ihi (by omega) j (by omega)]
      · rw [if_neg heq, if_neg heq, ihi (by omega) (j + 1) (by omega),
          ihj (by omega)]

theorem bruteLcs_reverse (a b : List String) :
    bruteLcs a.reverse b.reverse = bruteLcs a b := by
  apply Nat.le_antisymm
  · apply bruteLcs_le
    intro l h1 h2
    have h1' : l.reverse.Sublist a := by
      have h3 := List.reverse_sublist.mpr h1
      rwa [List.reverse_reverse] at h3
    have h2' : l.reverse.Sublist b := by
      have h3 := List.reverse_sublist.mpr h2
      rwa [List.reverse_reverse] at h3
    have h4 := le_bruteLcs h1' h2'
    rwa [List.length_reverse] at h4
  · apply bruteLcs_le
    intro l h1 h2
    have h4 := le_bruteLcs (List.reverse_sublist.mpr h1)
      (List.reverse_sublist.mpr h2)
    rwa [List.length_reverse] at h4


-- # Claim C8 (LCS table correctness)

/-- C8: the LCS engine's table satisfies the stated recurrence —
`L[0][j] = L[i][0] = 0`, `L[i+1][j+1] = L[i][j] + 1` when the `i`-th old
line equals the `j`-th new line and `max(L[i][j+1], L[i+1][j])` otherwise —
and its corner entry `L[m][n]` equals the true LCS length as computed by
the brute-force reference `bruteLcs` (maximum length over all common
subsequences). -/
theorem c8_lcs_table_correct (a b : List String) :
    (∀ j, lcsTable a b 0 j = 0)
    ∧ (∀ i, lcsTable a b i 0 = 0)
    ∧ (∀ i j, lcsTable a b (i + 1) (j + 1) =
        if a.getD i "" = b.getD j "" then lcsTable a b i j + 1
        else max (lcsTable a b i (j + 1)) (lcsTable a b (i + 1) j))
    ∧ lcsTable a b a.length b.length = bruteLcs a b := by
  refine ⟨fun j => rfl, fun i => ?_, fun i j => rfl, ?_⟩
  · cases i with
    | zero => rfl
    | succ i => rfl
  · rw [lcsTable_eq_dp a b a.length (Nat.le_refl _) b.length (Nat.le_refl _),
      List.take_length, List.take_length, dpLcs_eq_bruteLcs, bruteLcs_reverse]

theorem take_succ_getD (l : List String) (i : Nat) (h : i < l.length) :
    l.take (i + 1) = l.take i ++ [l.getD i ""] := by
  rw [List.take_succ, List.getElem?_eq_getElem h]
  simp [List.getD_eq_getElem?_getD, List.getElem?_eq_getElem h]

theorem unmarkedLines_append_single (S : Finset Nat) (l : List String)
    (x : String) :
    unmarkedLines S (l ++ [x]) =
      unmarkedLines S l ++ (if (l.length + 1) ∈ S then [] else [x]) := by
  unfold unmarkedLines
  rw [List.enum_append, List.enumFrom_singleton, List.filter_append,
    List.map_append]
  congr 1
  by_cases h : (l.length + 1) ∈ S
  · rw [if_pos h]
    simp [h]
  · rw [if_neg h]
    simp [h]

theorem unmarkedLines_empty (ls : List String) :
    unmarkedLines ∅ ls = ls := by
  unfold unmarkedLines
  rw [List.filter_eq_self.mpr (by simp), List.enum_map_snd]

theorem unmarkedLines_sublist (S : Finset Nat) (ls : List String) :
    (unmarkedLines S ls).Sublist ls := by
  unfold unmarkedLines
  have h1 := (List.filter_sublist (p := fun (e : Nat × String) =>
    decide ((e.1 + 1) ∉ S)) ls.enum).map (fun e => e.2)
  rwa [List.enum_map_snd] at h1

theorem unmarkedLines_insert_high (S : Finset Nat) (ls : List String)
    (m : Nat) (hm : ls.length < m) :
    unmarkedLines (insert m S) ls = unmarkedLines S ls := by
  unfold unmarkedLines
  congr 1
  apply List.filter_congr
  intro e he
  have hlt := (List.mem_enum he).1
  have hne : e.1 + 1 ≠ m := by omega
  simp [Finset.mem_insert, hne]

theorem diffWalk_marks_bound (a b : List String) :
    ∀ (f i j : Nat), ∀ k ∈ diffWalk a b f i j, 1 ≤ k ∧ k ≤ j := by
  intro f
  induction f with
  | zero => intro i j k hk; cases hk
  | succ f ih =>
    intro i j k hk
    unfold diffWalk at hk
    by_cases hj : j = 0
    · rw [if_pos hj] at hk
      cases hk
    · rw [if_neg hj] at hk
      by_cases hdiag : 0 < i ∧ a.getD (i - 1) "" = b.getD (j - 1) ""
      · rw [if_pos hdiag] at hk
        have := ih (i - 1) (j - 1) k hk
        omega
      · rw [if_neg hdiag] at hk
        rcases Finset.mem_insert.mp hk with hk | hk
        · omega
        · by_cases hmv : 0 < i ∧ (j = 0 ∨
              lcsTable a b (i - 1) j ≥ lcsTable a b i (j - 1))
          · rw [if_pos hmv] at hk
            exact ih (i - 1) j k hk
          · rw [if_neg hmv] at hk
            have := ih i (j - 1) k hk
            omega

theorem take_sublist_take (l : List String) (i : Nat) :
    (l.take i).Sublist (l.take (i + 1)) := by
  have h1 : l.take i = (l.take (i + 1)).take i := by
    rw [List.take_take]
    congr 1
    omega
  rw [h1]
  exact List.take_sublist i (l.take (i + 1))

theorem diffWalk_unmarked_sublist (a b : List String) :
    ∀ (f i j : Nat), i ≤ a.length → j ≤ b.length → i + j ≤ f →
      (unmarkedLines (diffWalk a b f i j) (b.take j)).Sublist (a.take i) := by
  intro f
  induction f with
  | zero =>
    intro i j hi hj hf
    have : j = 0 := by omega
    subst this
    show (unmarkedLines ∅ []).Sublist (a.take i)
    rw [unmarkedLines_empty]
    exact List.nil_sublist _
  | succ f ih =>
    intro i j hi hj hf
    unfold diffWalk
    by_cases hj0 : j = 0
    · subst hj0
      rw [if_pos rfl]
      rw [show b.take 0 = [] from rfl, unmarkedLines_empty]
      exact List.nil_sublist _
    · rw [if_neg hj0]
      have hj' : j - 1 < b.length := by omega
      have htb : b.take j = b.take (j - 1) ++ [b.getD (j - 1) ""] := by
        have := take_succ_getD b (j - 1) hj'
        rwa [Nat.sub_add_cancel (by omega)] at this
      by_cases hdiag : 0 < i ∧ a.getD (i - 1) "" = b.getD (j - 1) ""
      · rw [if_pos hdiag]
        have hi' : i - 1 < a.length := by omega
        have hta : a.take i = a.take (i - 1) ++ [a.getD (i - 1) ""] := by
          have := take_succ_getD a (i - 1) hi'
          rwa [Nat.sub_add_cancel (by omega)] at this
        rw [htb, hta, unmarkedLines_append_single]
        have hlen : (b.take (j - 1)).length = j - 1 := by
          rw [List.length_take]
          omega
        have hnot : ((b.take (j - 1)).length + 1) ∉
            diffWalk a b f (i - 1) (j - 1) := by
          intro hmem
          have := diffWalk_marks_bound a b f (i - 1) (j - 1) _ hmem
          omega
        rw [if_neg hnot, ← hdiag.2]
        exact (ih (i - 1) (j - 1) (by omega) (by omega) (by omega)).append
          (List.Sublist.refl _)
      · rw [if_neg hdiag]
        by_cases hmv : 0 < i ∧ (j = 0 ∨
            lcsTable a b (i - 1) j ≥ lcsTable a b i (j - 1))
        · rw [if_pos hmv]
          have hstep1 : unmarkedLines (insert j (diffWalk a b f (i - 1) j))
              (b.take j) = unmarkedLines (insert j (diffWalk a b f (i - 1) j))
                (b.take (j - 1)) := by
            rw [htb, unmarkedLines_append_single]
            have hlen : (b.take (j - 1)).length = j - 1 := by
              rw [List.length_take]
              omega
            have hmem : ((b.take (j - 1)).length + 1) ∈
                insert j (diffWalk a b f (i - 1) j) := by
              rw [hlen, Nat.sub_add_cancel (by omega)]
              exact Finset.mem_insert_self j _
            rw [if_pos hmem, List.append_nil]
          have hstep2 : unmarkedLines (insert j (diffWalk a b f (i - 1) j))
              (b.take (j - 1)) = unmarkedLines (diffWalk a b f (i - 1) j)
                (b.take (j - 1)) := by
            apply unmarkedLines_insert_high
            rw [List.length_take]
            omega
          rw [hstep1, hstep2]
          have hpre : (unmarkedLines (diffWalk a b f (i - 1) j)
              (b.take (j - 1))).Sublist (unmarkedLines
                (diffWalk a b f (i - 1) j) (b.take j)) := by
            rw [htb, unmarkedLines_append_single]
            exact List.sublist_append_left _ _
          have hih := ih (i - 1) j (by omega) (by omega) (by omega)
          have hmono : (a.take (i - 1)).Sublist (a.take i) := by
            have := take_sublist_take a (i - 1)
            rwa [Nat.sub_add_cancel (by omega)] at this
          exact (hpre.trans hih).trans hmono
        · rw [if_neg hmv]
          have hstep1 : unmarkedLines (insert j (diffWalk a b f i (j - 1)))
              (b.take j) = unmarkedLines (insert j (diffWalk a b f i (j - 1)))
                (b.take (j - 1)) := by
            rw [htb, unmarkedLines_append_single]
            have hlen : (b.take (j - 1)).length = j - 1 := by
              rw [List.length_take]
              omega
            have hmem : ((b.take (j - 1)).length + 1) ∈
                insert j (diffWalk a b f i (j - 1)) := by
              rw [hlen, Nat.sub_add_cancel (by omega)]
              exact Finset.mem_insert_self j _
            rw [if_pos hmem, List.append_nil]
          have hstep2 : unmarkedLines (insert j (diffWalk a b f i (j - 1)))
              (b.take (j - 1)) = unmarkedLines (diffWalk a b f i (j - 1))
                (b.take (j - 1)) := by
            apply unmarkedLines_insert_high
            rw [List.length_take]
            omega
          rw [hstep1, hstep2]
          exact ih i (j - 1) (by omega) (by omega) (by omega)


/-- C1, counterexample: on `oldText = "a\nb"`, `newText = "b\na"` the walk
marks both lines of the new text, although an optimal common subsequence
has length 1 — so a line belonging to an optimal common subsequence is
marked, and the returned set is not the complement of any optimal common
subsequence. -/
theorem c1_line_diff_cex :
    calculateLineDiff "a\nb" "b\na" = {1, 2}
    ∧ bruteLcs (splitLines "a\nb") (splitLines "b\na") = 1
    ∧ ¬ markedExactlyOutsideOptimal "a\nb" "b\na" := by
  refine ⟨by decide, by decide, ?_⟩
  unfold markedExactlyOutsideOptimal
  decide


/-- C1, amended: the lines of `newText` whose numbers are not returned
form a common subsequence of the old and new line sequences (so every
unmarked line is genuinely common), but that subsequence need not be of
maximum length, and the returned set may contain lines that belong to an
optimal common subsequence. -/
theorem c1_unmarked_common (oldText newText : String) :
    (unmarkedLines (calculateLineDiff oldText newText)
      (splitLines newText)).Sublist (splitLines oldText)
    ∧ (unmarkedLines (calculateLineDiff oldText newText)
        (splitLines newText)).Sublist (splitLines newText) := by
  refine ⟨?_, unmarkedLines_sublist _ _⟩
  unfold calculateLineDiff
  by_cases heq : oldText = newText
  · rw [if_pos heq, unmarkedLines_empty, heq]
  · rw [if_neg heq]
    have h := diffWalk_unmarked_sublist (splitLines oldText)
      (splitLines newText)
      ((splitLines oldText).length + (splitLines newText).length)
      (splitLines oldText).length (splitLines newText).length
      (Nat.le_refl _) (Nat.le_refl _) (Nat.le_refl _)
    rwa [List.take_length, List.take_length] at h

-- # The interleaved reconstruction of generateCodeDiffSummary (claim C4)

theorem diffChanges_filters (a b : List String) :
    ∀ (f oi nj : Nat), oi ≤ a.length → nj ≤ b.length → oi + nj ≤ f →
      (((diffChanges a b f oi nj).filter
          (fun c => c.type != ChangeType.added)).map (fun c => c.line)
        = a.take oi)
      ∧ (((diffChanges a b f oi nj).filter
          (fun c => c.type != ChangeType.removed)).map (fun c => c.line)
        = b.take nj) := by
  intro f
  induction f with
  | zero =>
    intro oi nj hoi hnj hf
    have h1 : oi = 0 := by omega
    have h2 : nj = 0 := by omega
    subst h1
    subst h2
    exact ⟨rfl, rfl⟩
  | succ f ih =>
    intro oi nj hoi hnj hf
    unfold diffChanges
    by_cases h0 : oi = 0 ∧ nj = 0
    · rw [if_pos h0, h0.1, h0.2]
      exact ⟨rfl, rfl⟩
    · rw [if_neg h0]
      by_cases hdiag : 0 < oi ∧ 0 < nj ∧ a.getD (oi - 1) "" = b.getD (nj - 1) ""
      · rw [if_pos hdiag]
        have hta : a.take oi = a.take (oi - 1) ++ [a.getD (oi - 1) ""] := by
          have h := take_succ_getD a (oi - 1) (by omega)
          rwa [Nat.sub_add_cancel (by omega)] at h
        have htb : b.take nj = b.take (nj - 1) ++ [b.getD (nj - 1) ""] := by
          have h := take_succ_getD b (nj - 1) (by omega)
          rwa [Nat.sub_add_cancel (by omega)] at h
        have hih := ih (oi - 1) (nj - 1) (by omega) (by omega) (by omega)
        constructor
        · rw [List.filter_append, List.map_append, hih.1, hta]
          rfl
        · rw [List.filter_append, List.map_append, hih.2, htb, hdiag.2.2]
          rfl
      · rw [if_neg hdiag]
        by_cases hadd : 0 < nj ∧ (oi = 0 ∨
            lcsTable a b oi (nj - 1) ≥ lcsTable a b (oi - 1) nj)
        · rw [if_pos hadd]
          have htb : b.take nj = b.take (nj - 1) ++ [b.getD (nj - 1) ""] := by
            have h := take_succ_getD b (nj - 1) (by omega)
            rwa [Nat.sub_add_cancel (by omega)] at h
          have hih := ih oi (nj - 1) (by omega) (by omega) (by omega)
          constructor
          · rw [List.filter_append, List.map_append, hih.1]
            simp
          · rw [List.filter_append, List.map_append, hih.2, htb]
            rfl
        · rw [if_neg hadd]
          have hoi0 : 0 < oi := by
            by_contra hc
            have : oi = 0 := by omega
            subst this
            have : nj ≠ 0 := fun h => h0 ⟨rfl, h⟩
            exact hadd ⟨by omega, Or.inl rfl⟩
          have hta : a.take oi = a.take (oi - 1) ++ [a.getD (oi - 1) ""] := by
            have h := take_succ_getD a (oi - 1) (by omega)
            rwa [Nat.sub_add_cancel (by omega)] at h
          have hih := ih (oi - 1) nj (by omega) (by omega) (by omega)
          constructor
          · rw [List.filter_append, List.map_append, hih.1, hta]
            rfl
          · rw [List.filter_append, List.map_append, hih.2]
            simp

theorem flatten_mem_split {α β : Type} (f : α → List β) :
    ∀ (l : List α) (p : α), p ∈ l →
      ∃ pre post, (l.map f).flatten = pre ++ f p ++ post := by
  intro l
  induction l with
  | nil => intro p hp; cases hp
  | cons x l ih =>
    intro p hp
    rcases List.mem_cons.mp hp with hp | hp
    · exact ⟨[], (l.map f).flatten, by rw [hp]; simp⟩
    · obtain ⟨pre, post, hsplit⟩ := ih p hp
      refine ⟨f x ++ pre, post, ?_⟩
      rw [List.map_cons, List.flatten_cons, hsplit]
      simp


-- # Claim C4 (faithful interleaved per-file diff)

/-- C4: for a path present in both collections with different content, the
summary's per-file reconstruction is a faithful interleaved diff: the
non-added entries of the reconstructed change list are exactly the old
file's lines in order, the non-removed entries are exactly the new file's
lines in order, and the file's rendered block (headers, prefixed change
lines, blank separator) appears contiguously in the summary output. -/
theorem c4_interleaved_diff (oldFiles newFiles : List GeneratedFile)
    (p oc nc : String) (h1 : fileLookup oldFiles p = some oc)
    (h2 : fileLookup newFiles p = some nc) (hne : oc ≠ nc) :
    (((diffChanges (splitLines oc) (splitLines nc)
        ((splitLines oc).length + (splitLines nc).length)
        (splitLines oc).length (splitLines nc).length).filter
          (fun c => c.type != ChangeType.added)).map (fun c => c.line)
      = splitLines oc)
    ∧ (((diffChanges (splitLines oc) (splitLines nc)
        ((splitLines oc).length + (splitLines nc).length)
        (splitLines oc).length (splitLines nc).length).filter
          (fun c => c.type != ChangeType.removed)).map (fun c => c.line)
      = splitLines nc)
    ∧ ∃ pre post, summaryLines oldFiles newFiles =
        pre ++ fileDiffBlock p oc nc ++ post := by
  have hfil := diffChanges_filters (splitLines oc) (splitLines nc)
    ((splitLines oc).length + (splitLines nc).length)
    (splitLines oc).length (splitLines nc).length
    (Nat.le_refl _) (Nat.le_refl _) (Nat.le_refl _)
  rw [List.take_length, List.take_length] at hfil
  refine ⟨hfil.1, hfil.2, ?_⟩
  -- the path is among the sorted deduplicated paths
  obtain ⟨fn, hfn⟩ : ∃ fn, newFiles.find? (fun f => f.path == p) = some fn := by
    cases hf : newFiles.find? (fun f => f.path == p) with
    | none => rw [fileLookup, hf] at h2; cases h2
    | some fn => exact ⟨fn, rfl⟩
  have hmemn : p ∈ newFiles.map (fun f => f.path) := by
    refine List.mem_map.mpr ⟨fn, List.mem_of_find?_eq_some hfn, ?_⟩
    have := List.find?_some hfn
    simpa using this
  have hmem : p ∈ (((oldFiles.map (fun f => f.path))
      ++ (newFiles.map (fun f => f.path))).dedup).insertionSort (· ≤ ·) :=
    (List.perm_insertionSort _ _).mem_iff.mpr
      (List.mem_dedup.mpr (List.mem_append.mpr (Or.inr hmemn)))
  have hblock : pathBlock oldFiles newFiles p = fileDiffBlock p oc nc := by
    unfold pathBlock
    rw [h1, h2]
    simp only [if_pos hne]
  obtain ⟨pre, post, hsplit⟩ :=
    flatten_mem_split (pathBlock oldFiles newFiles) _ p hmem
  refine ⟨pre, post, ?_⟩
  show ((((oldFiles.map (fun f => f.path)) ++ (newFiles.map (fun f => f.path))).dedup.insertionSort
      (· ≤ ·)).map (pathBlock oldFiles newFiles)).flatten =
    pre ++ fileDiffBlock p oc nc ++ post
  rw [hsplit, hblock]

/-- Witness for C4 at concrete one-file collections. -/
theorem c4_interleaved_diff_witness :
    fileLookup [⟨"A", "a\nb"⟩] "A" = some "a\nb"
    ∧ fileLookup [⟨"A", "a\nc"⟩] "A" = some "a\nc"
    ∧ ("a\nb" : String) ≠ "a\nc"
    ∧ ((((diffChanges (splitLines "a\nb") (splitLines "a\nc")
        ((splitLines "a\nb").length + (splitLines "a\nc").length)
        (splitLines "a\nb").length (splitLines "a\nc").length).filter
          (fun c => c.type != ChangeType.added)).map (fun c => c.line)
      = splitLines "a\nb")
    ∧ (((diffChanges (splitLines "a\nb") (splitLines "a\nc")
        ((splitLines "a\nb").length + (splitLines "a\nc").length)
        (splitLines "a\nb").length (splitLines "a\nc").length).filter
          (fun c => c.type != ChangeType.removed)).map (fun c => c.line)
      = splitLines "a\nc")
    ∧ ∃ pre post, summaryLines [⟨"A", "a\nb"⟩] [⟨"A", "a\nc"⟩] =
        pre ++ fileDiffBlock "A" "a\nb" "a\nc" ++ post) :=
  ⟨by decide, by decide, by decide,
    c4_interleaved_diff [⟨"A", "a\nb"⟩] [⟨"A", "a\nc"⟩] "A" "a\nb" "a\nc"
      (by decide) (by decide) (by decide)⟩
